import Mathlib

/-
Verification of the commit-aggregation and changelog-rendering pipeline of the
`oops-i-forgot-to-log-my-hours` command.

The Go source is shallowly embedded:
  * `Commit` / `RepoResult` mirror the structs of the source.
  * Strings are Lean `String`s; Go compares strings bytewise, which on valid
    UTF-8 agrees with the code-point lexicographic order used here
    (`charListLt` on `String.data`).  Go's byte-index slicing (`iso[:10]`,
    `c.Hash[:7]`) is modelled by `List.take` on `String.data`; the two agree
    on ASCII data, which is the domain of the hashes, dates and day keys
    involved.
  * `time.Parse(time.RFC3339, ...)` (the strict RFC 3339 profile used by
    `Parse` when the layout is exactly `time.RFC3339`) is `goParseRFC3339`;
    `time.Parse("2006-01-02T15:04:05", iso[:19])` is `parseCommitLocalClock`.
  * Go maps are modelled as association lists; where the source iterates a
    map in Go's unspecified order, the model fixes the insertion order as a
    representative, and no theorem below depends on that choice except where
    a claim is explicitly about ordering.
  * The goroutine fleet is modelled by `runAll`, which canonicalises the
    nondeterministic completion order to the input order: each worker's
    outcome depends only on its own repository's data, errors abort the
    whole command, and on success every repository's result is collected.
  * External `git` invocations are inputs of the model (`RepoEnv`): the
    configured identity, the branch enumeration outcome and the per-branch
    fetch outcomes.
-/

/-! ## Commit record model (struct `Commit`, src part_000 lines 19-25) -/

structure Commit where
  hash : String
  authorName : String
  authorEmail : String
  date : String
  message : String
deriving DecidableEq, Inhabited

/-- Struct `RepoResult` (src lines 27-31); the Go map `CommitsByDate` is an
association list with pairwise distinct keys in every value the program
builds. -/
structure RepoResult where
  path : String
  name : String
  commitsByDate : List (String × List Commit)
deriving DecidableEq, Inhabited

/-! ## Byte-level character and string helpers -/

/-- Go's digit test `'0' <= c && c <= '9'` used by `time`'s parsers. -/
def isDigitC (c : Char) : Bool := 48 ≤ c.toNat && c.toNat ≤ 57

/-- Numeric value of a digit character (`c - '0'`). -/
def digitVal (c : Char) : Nat := c.toNat - 48

/-- Digit character of a value (`'0' + n`). -/
def digitChar (n : Nat) : Char := Char.ofNat (48 + n)

/-- Go's bytewise `<` on strings, expressed on the code-point lists (the two
orders agree on valid UTF-8). -/
def charListLt : List Char → List Char → Bool
  | _, [] => false
  | [], _ :: _ => true
  | a :: as, b :: bs => a < b || (a == b && charListLt as bs)

/-- Go string comparison `a < b`. -/
def strLt (a b : String) : Bool := charListLt a.data b.data

/-- ASCII lower-casing of one character, as `strings.EqualFold` folds ASCII. -/
def lowerC (c : Char) : Char :=
  if 65 ≤ c.toNat ∧ c.toNat ≤ 90 then Char.ofNat (c.toNat + 32) else c

/-- Model of `strings.EqualFold` on the ASCII range: case-insensitive
equality by folding both sides. -/
def eqFold (a b : String) : Bool := a.data.map lowerC == b.data.map lowerC

/-! ## Time model (package `time` as used by the source) -/

/-- The wall-clock fields of a parsed `time.Time` that the program uses. -/
structure GoTime where
  year : Nat
  month : Nat
  day : Nat
  hour : Nat
  minute : Nat
  second : Nat
deriving DecidableEq, Inhabited

/-- `time.isLeap`. -/
def isLeap (y : Nat) : Bool := y % 4 == 0 && (y % 100 != 0 || y % 400 == 0)

/-- `time.daysIn(m, year)`: days of month `m` (1-12) in year `y`. -/
def daysIn (m y : Nat) : Nat :=
  if m = 2 then (if isLeap y then 29 else 28)
  else if m = 4 ∨ m = 6 ∨ m = 9 ∨ m = 11 then 30
  else 31

/-- Parsing of a 19-character `YYYY-MM-DDTHH:MM:SS` prefix, shared by the
strict RFC 3339 parser (its first 19 bytes) and by
`time.Parse("2006-01-02T15:04:05", ...)`.  Field widths, the digit
requirement and the range checks (month 1-12, day against `daysIn`, hour
0-23, minute/second 0-59) follow `time`'s parsers; on a 19-byte input the
layout parser can only succeed with a two-digit hour, so the fixed-position
match is exhaustive. -/
def parseDateTime19 : List Char → Option GoTime
  | [y1, y2, y3, y4, '-', mo1, mo2, '-', d1, d2, 'T',
     h1, h2, ':', mi1, mi2, ':', s1, s2] =>
    if isDigitC y1 ∧ isDigitC y2 ∧ isDigitC y3 ∧ isDigitC y4 ∧
       isDigitC mo1 ∧ isDigitC mo2 ∧ isDigitC d1 ∧ isDigitC d2 ∧
       isDigitC h1 ∧ isDigitC h2 ∧ isDigitC mi1 ∧ isDigitC mi2 ∧
       isDigitC s1 ∧ isDigitC s2 then
      let y := 1000 * digitVal y1 + 100 * digitVal y2 + 10 * digitVal y3 + digitVal y4
      let mo := 10 * digitVal mo1 + digitVal mo2
      let d := 10 * digitVal d1 + digitVal d2
      let h := 10 * digitVal h1 + digitVal h2
      let mi := 10 * digitVal mi1 + digitVal mi2
      let s := 10 * digitVal s1 + digitVal s2
      if 1 ≤ mo ∧ mo ≤ 12 ∧ 1 ≤ d ∧ d ≤ daysIn mo y ∧ h ≤ 23 ∧ mi ≤ 59 ∧ s ≤ 59 then
        some ⟨y, mo, d, h, mi, s⟩
      else none
    else none
  | _ => none

/-- The strict parser's optional fractional second: consumed only when a `.`
is immediately followed by a digit, together with the maximal digit run. -/
def stripFrac (l : List Char) : List Char :=
  match l with
  | '.' :: c :: rest => if isDigitC c then (c :: rest).dropWhile isDigitC else l
  | _ => l

/-- The strict parser's zone: exactly `Z`, or a six-byte `±HH:MM` offset with
hour 0-23 and minute 0-59. -/
def zoneOk : List Char → Bool
  | ['Z'] => true
  | [sg, zh1, zh2, ':', zm1, zm2] =>
    (sg == '+' || sg == '-') && isDigitC zh1 && isDigitC zh2 &&
      isDigitC zm1 && isDigitC zm2 &&
      decide (10 * digitVal zh1 + digitVal zh2 ≤ 23) &&
      decide (10 * digitVal zm1 + digitVal zm2 ≤ 59)
  | _ => false

/-- `time.Parse(time.RFC3339, iso)`: the strict RFC 3339 profile — a valid
19-byte date-time, an optional fractional second, then a mandatory zone.
Only the wall-clock fields are retained; formatting the parsed time in its
own offset location reproduces them unchanged. -/
def goParseRFC3339 (iso : String) : Option GoTime :=
  match parseDateTime19 (iso.data.take 19) with
  | some t => if zoneOk (stripFrac (iso.data.drop 19)) then some t else none
  | none => none

/-- Zero-padded two-digit rendering (`Format` verbs `01`, `02`, `15`, `04`). -/
def pad2 (n : Nat) : List Char := [digitChar (n / 10 % 10), digitChar (n % 10)]

/-- Zero-padded four-digit rendering (`Format` verb `2006`). -/
def pad4 (n : Nat) : List Char :=
  [digitChar (n / 1000 % 10), digitChar (n / 100 % 10),
   digitChar (n / 10 % 10), digitChar (n % 10)]

/-- `t.Format("2006-01-02")`. -/
def formatDateKey (t : GoTime) : String :=
  ⟨pad4 t.year ++ '-' :: (pad2 t.month ++ '-' :: pad2 t.day)⟩

/-- `extractDateKey` (src lines 312-320): strict RFC 3339 first, then the raw
first ten bytes, then the empty string. -/
def extractDateKey (iso : String) : String :=
  match goParseRFC3339 iso with
  | some t => formatDateKey t
  | none => if 10 ≤ iso.data.length then ⟨iso.data.take 10⟩ else ""

/-- `parseCommitLocalClock` (src lines 530-541): the first 19 bytes parsed
with layout `2006-01-02T15:04:05`, the zone ignored. -/
def parseCommitLocalClock (iso : String) : Option GoTime :=
  if iso.data.length < 19 then none
  else parseDateTime19 (iso.data.take 19)

/-- Civil day count (days since a fixed reference, offset by 400 years so the
computation stays in `Nat`); only differences of this count are ever used,
exactly as `time.Time.Sub` only exposes differences. -/
def daysSinceEpoch (y m d : Nat) : Nat :=
  let y' := if m ≤ 2 then y + 399 else y + 400
  let m' := if m ≤ 2 then m + 9 else m - 3
  let era := y' / 400
  let yoe := y' % 400
  let doy := (153 * m' + 2) / 5 + (d - 1)
  let doe := yoe * 365 + yoe / 4 - yoe / 100 + doy
  era * 146097 + doe

/-- Seconds on the absolute civil timeline of a parsed wall-clock time. -/
def toSecs (t : GoTime) : Int :=
  (daysSinceEpoch t.year t.month t.day : Int) * 86400 +
    ((t.hour * 3600 + t.minute * 60 + t.second : Nat) : Int)

def maxI64 : Int := 2 ^ 63 - 1

def minI64 : Int := -(2 ^ 63)

/-- `endT.Sub(startT)` in nanoseconds: Go's `Duration` is an `int64` and
`Sub` clamps to the maximal/minimal duration on overflow. -/
def goSub (a b : GoTime) : Int :=
  let d := (toSecs a - toSecs b) * 1000000000
  if d > maxI64 then maxI64 else if d < minI64 then minI64 else d

/-- `if d < 0 { d = -d }` on an `int64`: negating the minimal duration wraps
to itself. -/
def goAbsDuration (d : Int) : Int :=
  if d < 0 then (if d = minI64 then d else -d) else d

/-! ## Repository aggregator (src lines 152-208) -/

/-- The identity filter of the aggregation loop:
`strings.EqualFold(c.AuthorEmail, email)` (src line 175). -/
def matchesIdentity (email : String) (c : Commit) : Bool := eqFold c.authorEmail email

/-- Insertion into `commitMap`: the first commit of a given hash wins
(src lines 176-178). -/
def insertByHash (acc : List Commit) (c : Commit) : List Commit :=
  if acc.any (fun c2 => c2.hash == c.hash) then acc else acc ++ [c]

/-- The nested loop over branches and their fetched commits (src 167-181):
matching-identity commits folded into the hash-keyed map, in branch order.
The association list keeps the insertion order as the representative of the
Go map's unspecified iteration order. -/
def collectCommits (email : String) (branchLists : List (List Commit)) : List Commit :=
  branchLists.foldl (fun acc cs =>
    cs.foldl (fun acc c =>
      if matchesIdentity email c then insertByHash acc c else acc) acc) []

/-- All matching-identity commits in branch iteration order, before
deduplication (specification vocabulary for the first-wins statement). -/
def matchingStream (email : String) (branchLists : List (List Commit)) : List Commit :=
  (branchLists.map (List.filter (matchesIdentity email))).flatten

/-- `commitsByDate[dateKey] = append(commitsByDate[dateKey], c)` (src 192)
on the association-list representation of the Go map. -/
def addToBucket : List (String × List Commit) → String → Commit → List (String × List Commit)
  | [], k, c => [(k, [c])]
  | (k', cs) :: rest, k, c =>
    if k' == k then (k', cs ++ [c]) :: rest
    else (k', cs) :: addToBucket rest k c

/-- The day-bucketing loop (src 185-193): commits whose date yields an empty
key are dropped with a non-fatal warning (`log.Printf`), the others are
appended to their day bucket. -/
def buildBuckets (commits : List Commit) : List (String × List Commit) :=
  commits.foldl (fun m c =>
    let k := extractDateKey c.date
    if k == "" then m else addToBucket m k c) []

/-- The comparator of `sort.Slice` in the aggregator (src 196-198):
`list[i].Date < list[j].Date`; sorting places `a` before `b` when
`b.Date < a.Date` fails. -/
def commitPrec (a b : Commit) : Prop := strLt b.date a.date = false

instance : DecidableRel commitPrec :=
  fun a b => inferInstanceAs (Decidable (strLt b.date a.date = false))

/-- Each day bucket sorted ascending by timestamp string (src 195-199).
`sort.Slice` promises a sorted permutation; `insertionSort` is the model's
witness of one. -/
def sortBuckets (m : List (String × List Commit)) : List (String × List Commit) :=
  m.map (fun kv => (kv.fst, List.insertionSort commitPrec kv.snd))

/-- One repository's aggregation result (src 183-207) from the identity and
the per-branch fetched commit lists. -/
def mkRepoResult (path name email : String) (branchLists : List (List Commit)) : RepoResult :=
  ⟨path, name, sortBuckets (buildBuckets (collectCommits email branchLists))⟩

/-- All commits across the day buckets of one repository result. -/
def bucketCommits (r : RepoResult) : List Commit :=
  (r.commitsByDate.map Prod.snd).flatten

/-! ## Parallel fleet coordinator (src 133-228) -/

/-- Outcome of `fetchCommitsForBranch` for one branch: the parsed commit
records, or a failure of the underlying invocation. -/
inductive FetchRes where
  | ok (commits : List Commit)
  | err
deriving DecidableEq

structure BranchFetch where
  branch : String
  res : FetchRes
deriving DecidableEq

/-- One repository as the worker sees it: its path, the configured identity
(`git config user.email`), and the outcome of branch enumeration — `none`
when `listBranches` fails, otherwise each branch with its fetch outcome. -/
structure RepoEnv where
  path : String
  email : String
  branchList : Option (List BranchFetch)
deriving DecidableEq

/-- `filepath.Base(filepath.Clean(repoPath))` (src line 152) for ordinary
slash-separated paths: the last nonempty segment. -/
def baseName (p : String) : String :=
  match ((p.splitOn "/").filter (fun s => !(s == ""))).getLast? with
  | some s => s
  | none => if p == "" then "." else "/"

/-- The two error shapes the worker can emit (src 161, 170). -/
inductive AggErr where
  | branchList (repoPath : String)
  | fetch (branch : String) (repoPath : String)
deriving DecidableEq

/-- The formatted messages of `fmt.Errorf` at src 161 and 170; both name the
offending repository, the fetch error also the branch. -/
def errMessage : AggErr → String
  | AggErr.branchList p => "unable to list branches for repo " ++ p
  | AggErr.fetch br p => "error fetching commits for branch " ++ br ++ " in repo " ++ p

def fetchedCommits (b : BranchFetch) : List Commit :=
  match b.res with
  | FetchRes.ok cs => cs
  | FetchRes.err => []

def branchFailed (b : BranchFetch) : Bool :=
  match b.res with
  | FetchRes.err => true
  | FetchRes.ok _ => false

/-- One worker goroutine (src 145-209): a branch-enumeration failure or the
first failing fetch aborts the repository with a tagged error; otherwise the
repository result is built from every branch's commits. -/
def runWorker (env : RepoEnv) : Except AggErr RepoResult :=
  match env.branchList with
  | none => Except.error (AggErr.branchList env.path)
  | some bs =>
    match bs.find? branchFailed with
    | some b => Except.error (AggErr.fetch b.branch env.path)
    | none =>
      Except.ok (mkRepoResult env.path (baseName env.path) env.email
        (bs.map fetchedCommits))

/-- Whether a worker sends an error to the error channel. -/
def workerFailsB (env : RepoEnv) : Bool :=
  match env.branchList with
  | none => true
  | some bs => bs.any branchFailed

/-- The coordinator (src 143-219): every worker runs to completion, then the
drained error channel aborts the command on any error; otherwise all results
are collected.  The nondeterministic completion order is canonicalised to
the input order. -/
def runAll : List RepoEnv → Except AggErr (List RepoResult)
  | [] => Except.ok []
  | env :: rest =>
    match runWorker env with
    | Except.error e => Except.error e
    | Except.ok r =>
      match runAll rest with
      | Except.error e => Except.error e
      | Except.ok rs => Except.ok (r :: rs)

/-! ## JSON output (src 221-226; `encoding/json` semantics) -/

inductive Json where
  | null
  | str (s : String)
  | arr (items : List Json)
  | obj (fields : List (String × Json))

/-- The five tagged fields of a `Commit` (src 20-24). -/
def encodeCommit (c : Commit) : Json :=
  Json.obj [("hash", Json.str c.hash), ("author_name", Json.str c.authorName),
    ("author_email", Json.str c.authorEmail), ("date", Json.str c.date),
    ("message", Json.str c.message)]

/-- `encoding/json` marshals maps with keys sorted ascending. -/
def bucketKeyPrec (a b : String × List Commit) : Prop := strLt b.fst a.fst = false

instance : DecidableRel bucketKeyPrec :=
  fun a b => inferInstanceAs (Decidable (strLt b.fst a.fst = false))

/-- `commits_by_date` marshalled: an object, keys sorted, each day an array
of commit objects; an empty (non-nil) map marshals to `{}`. -/
def encodeByDate (m : List (String × List Commit)) : Json :=
  Json.obj ((List.insertionSort bucketKeyPrec m).map
    (fun kv => (kv.fst, Json.arr (kv.snd.map encodeCommit))))

def encodeRepoResult (r : RepoResult) : Json :=
  Json.obj [("path", Json.str r.path), ("name", Json.str r.name),
    ("commits_by_date", encodeByDate r.commitsByDate)]

/-- `json.NewEncoder(os.Stdout).Encode(results)`: the collected slice in its
collection order. -/
def jsonEncodeResults (rs : List RepoResult) : Json :=
  Json.arr (rs.map encodeRepoResult)

/-! ## Pretty rendering (src `printPretty`, lines 543-707) -/

/-- `ChangelogEntry` (src 545-550). -/
structure ChangelogEntry where
  dateKey : String
  repoName : String
  repoPath : String
  commit : Commit
deriving DecidableEq, Inhabited

/-- Go-map lookup on the association list (first binding of the key; the
program only builds lists with pairwise distinct keys). -/
def lookupDate (m : List (String × List Commit)) (d : String) : List Commit :=
  match m.find? (fun kv => kv.fst == d) with
  | some kv => kv.snd
  | none => []

/-- The entries one repository contributes to day `d` (src 555-565). -/
def repoEntries (r : RepoResult) (d : String) : List ChangelogEntry :=
  (lookupDate r.commitsByDate d).map (fun c => ⟨d, r.name, r.path, c⟩)

/-- `dateMap[d]`: contributions of all repositories in collection order. -/
def entriesAt (results : List RepoResult) (d : String) : List ChangelogEntry :=
  (results.map (fun r => repoEntries r d)).flatten

/-- The distinct day keys appearing in any repository's map. -/
def mapKeys (results : List RepoResult) : List String :=
  ((results.map (fun r => r.commitsByDate.map Prod.fst)).flatten).dedup

/-- The keys of `dateMap`: exactly the days with at least one entry. -/
def dayKeys (results : List RepoResult) : List String :=
  (mapKeys results).filter (fun d => !(entriesAt results d).isEmpty)

/-- `a` may precede `b` under `sort.Strings` (ascending `<`). -/
def strPrec (a b : String) : Prop := strLt b a = false

instance : DecidableRel strPrec :=
  fun a b => inferInstanceAs (Decidable (strLt b a = false))

/-- `sort.Strings(dates)` (src 574-578). -/
def sortedDayKeys (results : List RepoResult) : List String :=
  List.insertionSort strPrec (dayKeys results)

/-- The comparator of `sort.Slice` over a day's entries (src 587-598):
timestamp, then repository name, then hash. -/
def entLt (a b : ChangelogEntry) : Bool :=
  if a.commit.date == b.commit.date then
    if a.repoName == b.repoName then strLt a.commit.hash b.commit.hash
    else strLt a.repoName b.repoName
  else strLt a.commit.date b.commit.date

/-- `a` may precede `b` under that comparator. -/
def entPrec (a b : ChangelogEntry) : Prop := entLt b a = false

instance : DecidableRel entPrec :=
  fun a b => inferInstanceAs (Decidable (entLt b a = false))

/-- The in-day sort (src 587-598); `sort.Slice` promises a sorted
permutation, witnessed by `insertionSort`. -/
def sortEntries (l : List ChangelogEntry) : List ChangelogEntry :=
  List.insertionSort entPrec l

/-- `block` (src 604-609); the computed duration is carried separately. -/
structure Block where
  startIdx : Nat
  endIdx : Nat
  repoName : String
deriving DecidableEq

/-- The block-building loop body (src 617-629): `rest` is the suffix of the
entry list from index `i`; a repository-name change closes the block
`[startIdx, i-1]`, and exhaustion closes the final block (src 631-635). -/
def buildBlocksGo : List ChangelogEntry → Nat → Nat → String → List Block
  | [], i, startIdx, currentRepo => [⟨startIdx, i - 1, currentRepo⟩]
  | e :: rest, i, startIdx, currentRepo =>
    if e.repoName == currentRepo then
      buildBlocksGo rest (i + 1) startIdx currentRepo
    else
      ⟨startIdx, i - 1, currentRepo⟩ :: buildBlocksGo rest (i + 1) i e.repoName

/-- Blocks of a day's sorted entry list (src 611-636): maximal contiguous
runs of one repository name; no blocks for an empty list. -/
def buildBlocks : List ChangelogEntry → List Block
  | [] => []
  | e :: rest => buildBlocksGo rest 1 0 e.repoName

def entryAt (l : List ChangelogEntry) (i : Nat) : ChangelogEntry :=
  l.getD i default

/-- The per-block duration (src 638-654): both boundary timestamps parsed
under the local-clock rule give `|last − first|` (with Go's `int64`
saturation and wrap), any parse failure gives zero.  The source computes
this value but never prints it. -/
def blockDuration (entries : List ChangelogEntry) (b : Block) : Int :=
  match parseCommitLocalClock (entryAt entries b.startIdx).commit.date,
        parseCommitLocalClock (entryAt entries b.endIdx).commit.date with
  | some ts, some te => goAbsDuration (goSub te ts)
  | _, _ => 0

/-- The data printed for one commit line (src 688-703): the `15:04` local
time (empty on parse failure), the subject, and the 7-byte hash slice. -/
structure RenderedCommit where
  timeStr : String
  message : String
  shortHash : String
deriving DecidableEq

structure RenderedBlock where
  repoName : String
  commits : List RenderedCommit
deriving DecidableEq

structure RenderedDay where
  date : String
  blocks : List RenderedBlock
deriving DecidableEq

/-- The pretty output: the `(no commits)` line, or the day sections in
print order. -/
inductive PrettyOut where
  | noCommits
  | days (l : List RenderedDay)

def pad2Str (n : Nat) : String := ⟨pad2 n⟩

/-- One commit line.  `c.Hash[:7]` (src 701) is an unguarded byte slice: on a
hash shorter than 7 it panics, modelled as `none`. -/
def renderEntry (e : ChangelogEntry) : Option RenderedCommit :=
  if e.commit.hash.data.length < 7 then none
  else
    some { timeStr :=
             match parseCommitLocalClock e.commit.date with
             | some t => pad2Str t.hour ++ ":" ++ pad2Str t.minute
             | none => ""
           message := e.commit.message
           shortHash := ⟨e.commit.hash.data.take 7⟩ }

/-- The entries of a block: indices `StartIdx .. EndIdx` (src 688). -/
def blockSegment (l : List ChangelogEntry) (b : Block) : List ChangelogEntry :=
  (l.drop b.startIdx).take (b.endIdx + 1 - b.startIdx)

def renderBlock (entries : List ChangelogEntry) (b : Block) : Option RenderedBlock :=
  ((blockSegment entries b).mapM renderEntry).map (fun cs => ⟨b.repoName, cs⟩)

def renderDay (d : String) (entries : List ChangelogEntry) : Option RenderedDay :=
  ((buildBlocks entries).mapM (renderBlock entries)).map (fun bs => ⟨d, bs⟩)

/-- `printPretty` (src 544-707): the empty-index message, else the days in
sorted order, each with its sorted entries cut into blocks; `none` models
the slice panic of `c.Hash[:7]`. -/
def printPretty (results : List RepoResult) : Option PrettyOut :=
  if (dayKeys results).isEmpty then some PrettyOut.noCommits
  else ((sortedDayKeys results).mapM
        (fun d => renderDay d (sortEntries (entriesAt results d)))).map PrettyOut.days

/-- JSON mode of the command after collection (src 221-226). -/
def runCommandJson (envs : List RepoEnv) : Except AggErr Json :=
  (runAll envs).map jsonEncodeResults

/-- Pretty mode of the command after collection (src 228). -/
def runCommandPretty (envs : List RepoEnv) : Except AggErr (Option PrettyOut) :=
  (runAll envs).map printPretty

/-! ## Specification-side vocabulary -/

/-- Follows the spec's words: a ten-character string that "looks like a
date", i.e. has the literal `YYYY-MM-DD` digit shape. -/
def specLooksLikeDate (s : String) : Bool :=
  match s.data with
  | [y1, y2, y3, y4, '-', m1, m2, '-', d1, d2] =>
    isDigitC y1 && isDigitC y2 && isDigitC y3 && isDigitC y4 &&
      isDigitC m1 && isDigitC m2 && isDigitC d1 && isDigitC d2
  | _ => false

/-- The claimed in-day total order: timestamp ascending, then repository
name ascending, then hash ascending. -/
def tripleLe (a b : ChangelogEntry) : Prop :=
  strLt a.commit.date b.commit.date = true ∨
    (a.commit.date = b.commit.date ∧
      (strLt a.repoName b.repoName = true ∨
        (a.repoName = b.repoName ∧
          (strLt a.commit.hash b.commit.hash = true ∨ a.commit.hash = b.commit.hash))))

/-- The sort key of an entry in the in-day order. -/
def entryKey (e : ChangelogEntry) : String × String × String :=
  (e.commit.date, e.repoName, e.commit.hash)

/-- The day-bucket invariant every aggregator-built result satisfies: every
bucket key is nonempty and is the date key of each commit filed under it. -/
def WellFormedResults (rs : List RepoResult) : Prop :=
  ∀ r ∈ rs, ∀ kv ∈ r.commitsByDate, kv.fst ≠ "" ∧
    ∀ c ∈ kv.snd, extractDateKey c.date = kv.fst

/-- The `YYYY-MM-DD` fields of a day key, used to compare the civil dates of
two commits filed under the same bucket. -/
def dayKeyFieldsL : List Char → Option (Nat × Nat × Nat)
  | [y1, y2, y3, y4, '-', m1, m2, '-', d1, d2] =>
    if isDigitC y1 ∧ isDigitC y2 ∧ isDigitC y3 ∧ isDigitC y4 ∧
       isDigitC m1 ∧ isDigitC m2 ∧ isDigitC d1 ∧ isDigitC d2 then
      some (1000 * digitVal y1 + 100 * digitVal y2 + 10 * digitVal y3 + digitVal y4,
        10 * digitVal m1 + digitVal m2, 10 * digitVal d1 + digitVal d2)
    else none
  | _ => none

/-- The same fields read off a day-key string. -/
def dayKeyFields (s : String) : Option (Nat × Nat × Nat) := dayKeyFieldsL s.data

/-! ## Order facts for the bytewise string comparison -/

theorem charListLt_cons_iff {a b : Char} {as bs : List Char} :
    charListLt (a :: as) (b :: bs) = true ↔
      a < b ∨ (a = b ∧ charListLt as bs = true) := by
  simp [charListLt, Bool.or_eq_true, Bool.and_eq_true, decide_eq_true_iff, beq_iff_eq]

theorem charListLt_irrefl : ∀ l : List Char, charListLt l l = false
  | [] => rfl
  | a :: as => by
    have ih := charListLt_irrefl as
    simp [charListLt, ih, lt_irrefl]

theorem charListLt_trans : ∀ {l1 l2 l3 : List Char},
    charListLt l1 l2 = true → charListLt l2 l3 = true → charListLt l1 l3 = true
  | _, [], _, h, _ => by simp [charListLt] at h
  | _, _ :: _, [], _, h => by simp [charListLt] at h
  | [], _ :: _, _ :: _, _, _ => by simp [charListLt]
  | a :: as, b :: bs, c :: cs, h1, h2 => by
    rw [charListLt_cons_iff] at h1 h2 ⊢
    rcases h1 with h1 | ⟨rfl, h1⟩
    · rcases h2 with h2 | ⟨rfl, _⟩
      · exact Or.inl (lt_trans h1 h2)
      · exact Or.inl h1
    · rcases h2 with h2 | ⟨rfl, h2⟩
      · exact Or.inl h2
      · exact Or.inr ⟨rfl, charListLt_trans h1 h2⟩

theorem charListLt_antisymm : ∀ {l1 l2 : List Char},
    charListLt l1 l2 = false → charListLt l2 l1 = false → l1 = l2
  | [], [], _, _ => rfl
  | [], _ :: _, h1, _ => by simp [charListLt] at h1
  | _ :: _, [], _, h2 => by simp [charListLt] at h2
  | a :: as, b :: bs, h1, h2 => by
    have h1' : ¬ charListLt (a :: as) (b :: bs) = true := by simp [h1]
    have h2' : ¬ charListLt (b :: bs) (a :: as) = true := by simp [h2]
    rw [charListLt_cons_iff] at h1' h2'
    push_neg at h1' h2'
    have hab' : a = b := le_antisymm h2'.1 h1'.1
    subst hab'
    have h3 : charListLt as bs = false := by
      rcases h : charListLt as bs with _ | _
      · rfl
      · exact absurd h (h1'.2 rfl)
    have h4 : charListLt bs as = false := by
      rcases h : charListLt bs as with _ | _
      · rfl
      · exact absurd h (h2'.2 rfl)
    rw [charListLt_antisymm h3 h4]

theorem charListLt_asymm {l1 l2 : List Char} (h : charListLt l1 l2 = true) :
    charListLt l2 l1 = false := by
  rcases h2 : charListLt l2 l1 with _ | _
  · rfl
  · exact absurd (charListLt_trans h h2) (by simp [charListLt_irrefl l1])

theorem strLt_antisymm {a b : String} (h1 : strLt a b = false) (h2 : strLt b a = false) :
    a = b :=
  String.ext (charListLt_antisymm h1 h2)

theorem strLt_asymm {a b : String} (h : strLt a b = true) : strLt b a = false :=
  charListLt_asymm h

theorem strLt_trans {a b c : String} (h1 : strLt a b = true) (h2 : strLt b c = true) :
    strLt a c = true :=
  charListLt_trans h1 h2

theorem strLt_irrefl (a : String) : strLt a a = false :=
  charListLt_irrefl a.data

theorem strPrec_iff {a b : String} : strPrec a b ↔ (strLt a b = true ∨ a = b) := by
  constructor
  · intro h
    rcases h2 : strLt a b with _ | _
    · exact Or.inr (strLt_antisymm h2 h)
    · exact Or.inl rfl
  · intro h
    rcases h with h | rfl
    · exact strLt_asymm h
    · exact strLt_irrefl a

instance : IsTotal String strPrec where
  total a b := by
    unfold strPrec
    rcases h : strLt b a with _ | _
    · exact Or.inl rfl
    · exact Or.inr (strLt_asymm h)

instance : IsTrans String strPrec where
  trans a b c h1 h2 := by
    rcases strPrec_iff.mp h1 with hab | rfl
    · rcases strPrec_iff.mp h2 with hbc | rfl
      · exact strLt_asymm (strLt_trans hab hbc)
      · exact strLt_asymm hab
    · exact h2

instance : IsAntisymm String strPrec where
  antisymm a b h1 h2 := strLt_antisymm h2 h1

instance : IsTotal (String × List Commit) bucketKeyPrec where
  total a b := by
    unfold bucketKeyPrec
    rcases h : strLt b.fst a.fst with _ | _
    · exact Or.inl rfl
    · exact Or.inr (strLt_asymm h)

instance : IsTrans (String × List Commit) bucketKeyPrec where
  trans a b c h1 h2 :=
    IsTrans.trans (r := strPrec) a.fst b.fst c.fst h1 h2

instance : IsTotal Commit commitPrec where
  total a b := by
    unfold commitPrec
    rcases h : strLt b.date a.date with _ | _
    · exact Or.inl rfl
    · exact Or.inr (strLt_asymm h)

instance : IsTrans Commit commitPrec where
  trans a b c h1 h2 :=
    IsTrans.trans (r := strPrec) a.date b.date c.date h1 h2

theorem strLt_false_iff {a b : String} : strLt b a = false ↔ (strLt a b = true ∨ a = b) :=
  strPrec_iff

theorem tripleLe_total (a b : ChangelogEntry) : tripleLe a b ∨ tripleLe b a := by
  unfold tripleLe
  rcases hd : strLt a.commit.date b.commit.date with _ | _
  · rcases hd' : strLt b.commit.date a.commit.date with _ | _
    · have hdd : b.commit.date = a.commit.date := strLt_antisymm hd' hd
      rcases hr : strLt a.repoName b.repoName with _ | _
      · rcases hr' : strLt b.repoName a.repoName with _ | _
        · have hrr : b.repoName = a.repoName := strLt_antisymm hr' hr
          rcases hh : strLt a.commit.hash b.commit.hash with _ | _
          · rcases hh' : strLt b.commit.hash a.commit.hash with _ | _
            · have hhh : b.commit.hash = a.commit.hash := strLt_antisymm hh' hh
              exact Or.inl (Or.inr ⟨hdd.symm, Or.inr ⟨hrr.symm, Or.inr hhh.symm⟩⟩)
            · exact Or.inr (Or.inr ⟨hdd, Or.inr ⟨hrr, Or.inl rfl⟩⟩)
          · exact Or.inl (Or.inr ⟨hdd.symm, Or.inr ⟨hrr.symm, Or.inl rfl⟩⟩)
        · exact Or.inr (Or.inr ⟨hdd, Or.inl rfl⟩)
      · exact Or.inl (Or.inr ⟨hdd.symm, Or.inl rfl⟩)
    · exact Or.inr (Or.inl rfl)
  · exact Or.inl (Or.inl rfl)

theorem tripleLe_trans {a b c : ChangelogEntry} (h1 : tripleLe a b) (h2 : tripleLe b c) :
    tripleLe a c := by
  unfold tripleLe at h1 h2 ⊢
  rcases h1 with h1 | ⟨e1, h1⟩
  · rcases h2 with h2 | ⟨e2, _⟩
    · exact Or.inl (strLt_trans h1 h2)
    · exact Or.inl (by rw [← e2]; exact h1)
  · rcases h2 with h2 | ⟨e2, h2⟩
    · exact Or.inl (by rw [e1]; exact h2)
    · refine Or.inr ⟨e1.trans e2, ?_⟩
      rcases h1 with h1 | ⟨f1, h1⟩
      · rcases h2 with h2 | ⟨f2, _⟩
        · exact Or.inl (strLt_trans h1 h2)
        · exact Or.inl (by rw [← f2]; exact h1)
      · rcases h2 with h2 | ⟨f2, h2⟩
        · exact Or.inl (by rw [f1]; exact h2)
        · refine Or.inr ⟨f1.trans f2, ?_⟩
          rcases h1 with h1 | g1
          · rcases h2 with h2 | g2
            · exact Or.inl (strLt_trans h1 h2)
            · exact Or.inl (by rw [← g2]; exact h1)
          · rcases h2 with h2 | g2
            · exact Or.inl (by rw [g1]; exact h2)
            · exact Or.inr (g1.trans g2)

theorem tripleLe_antisymm_key {a b : ChangelogEntry} (h1 : tripleLe a b) (h2 : tripleLe b a) :
    entryKey a = entryKey b := by
  unfold tripleLe at h1 h2
  unfold entryKey
  rcases h1 with h1 | ⟨e1, h1⟩
  · rcases h2 with h2 | ⟨e2, _⟩
    · exact absurd h1 (by simp [strLt_asymm h2])
    · exact absurd h1 (by rw [e2]; simp [strLt_irrefl])
  · rcases h2 with h2 | ⟨_, h2⟩
    · exact absurd h2 (by rw [e1]; simp [strLt_irrefl])
    · rcases h1 with h1 | ⟨f1, h1⟩
      · rcases h2 with h2 | ⟨f2, _⟩
        · exact absurd h1 (by simp [strLt_asymm h2])
        · exact absurd h1 (by rw [f2]; simp [strLt_irrefl])
      · rcases h2 with h2 | ⟨_, h2⟩
        · exact absurd h2 (by rw [f1]; simp [strLt_irrefl])
        · rcases h1 with h1 | g1
          · rcases h2 with h2 | g2
            · exact absurd h1 (by simp [strLt_asymm h2])
            · exact absurd h1 (by rw [g2]; simp [strLt_irrefl])
          · simp [e1, f1, g1]

theorem strLt_not_of_ne {a b : String} (h : a ≠ b) : strLt b a = !strLt a b := by
  rcases h1 : strLt a b with _ | _
  · rcases h2 : strLt b a with _ | _
    · exact absurd (strLt_antisymm h1 h2) h
    · rfl
  · rcases h2 : strLt b a with _ | _
    · rfl
    · exact absurd h1 (by simp [strLt_asymm h2])

theorem entPrec_iff {a b : ChangelogEntry} : entPrec a b ↔ tripleLe a b := by
  unfold entPrec entLt tripleLe
  by_cases hd : b.commit.date = a.commit.date
  · by_cases hr : b.repoName = a.repoName
    · simp [hd, hr, strLt_irrefl]
      exact strLt_false_iff
    · have hr' : a.repoName ≠ b.repoName := fun h => hr h.symm
      simp [hd, hr, hr', strLt_irrefl]
      exact strLt_not_of_ne hr'
  · have hd' : a.commit.date ≠ b.commit.date := fun h => hd h.symm
    simp [hd, hd']
    exact strLt_not_of_ne hd'

instance : IsTotal ChangelogEntry entPrec where
  total a b := by
    rcases tripleLe_total a b with h | h
    · exact Or.inl (entPrec_iff.mpr h)
    · exact Or.inr (entPrec_iff.mpr h)

instance : IsTrans ChangelogEntry entPrec where
  trans _ _ _ h1 h2 := entPrec_iff.mpr (tripleLe_trans (entPrec_iff.mp h1) (entPrec_iff.mp h2))

/-! ## Digit and date-parsing facts -/

theorem isDigitC_bounds {c : Char} (h : isDigitC c = true) : 48 ≤ c.toNat ∧ c.toNat ≤ 57 := by
  unfold isDigitC at h
  simpa [Bool.and_eq_true, decide_eq_true_iff] using h

theorem digitVal_le9 {c : Char} (h : isDigitC c = true) : digitVal c ≤ 9 := by
  have hb := isDigitC_bounds h
  unfold digitVal
  omega

theorem toNat_digitChar {n : Nat} (h : n ≤ 9) : (digitChar n).toNat = 48 + n := by
  unfold digitChar
  interval_cases n <;> decide

theorem digitVal_digitChar {n : Nat} (h : n ≤ 9) : digitVal (digitChar n) = n := by
  unfold digitVal
  rw [toNat_digitChar h]
  omega

theorem isDigitC_digitChar {n : Nat} (h : n ≤ 9) : isDigitC (digitChar n) = true := by
  unfold isDigitC
  rw [toNat_digitChar h]
  simp only [Bool.and_eq_true, decide_eq_true_iff]
  omega

theorem digitChar_digitVal {c : Char} (h : isDigitC c = true) : digitChar (digitVal c) = c := by
  have hb := isDigitC_bounds h
  unfold digitChar digitVal
  have e : 48 + (c.toNat - 48) = c.toNat := by omega
  rw [e, Char.ofNat_toNat]

theorem pad4_val {c1 c2 c3 c4 : Char} (h1 : isDigitC c1 = true) (h2 : isDigitC c2 = true)
    (h3 : isDigitC c3 = true) (h4 : isDigitC c4 = true) :
    pad4 (1000 * digitVal c1 + 100 * digitVal c2 + 10 * digitVal c3 + digitVal c4) =
      [c1, c2, c3, c4] := by
  have b1 := digitVal_le9 h1
  have b2 := digitVal_le9 h2
  have b3 := digitVal_le9 h3
  have b4 := digitVal_le9 h4
  unfold pad4
  have e1 : (1000 * digitVal c1 + 100 * digitVal c2 + 10 * digitVal c3 + digitVal c4)
      / 1000 % 10 = digitVal c1 := by omega
  have e2 : (1000 * digitVal c1 + 100 * digitVal c2 + 10 * digitVal c3 + digitVal c4)
      / 100 % 10 = digitVal c2 := by omega
  have e3 : (1000 * digitVal c1 + 100 * digitVal c2 + 10 * digitVal c3 + digitVal c4)
      / 10 % 10 = digitVal c3 := by omega
  have e4 : (1000 * digitVal c1 + 100 * digitVal c2 + 10 * digitVal c3 + digitVal c4)
      % 10 = digitVal c4 := by omega
  rw [e1, e2, e3, e4, digitChar_digitVal h1, digitChar_digitVal h2,
    digitChar_digitVal h3, digitChar_digitVal h4]

theorem pad2_val {c1 c2 : Char} (h1 : isDigitC c1 = true) (h2 : isDigitC c2 = true) :
    pad2 (10 * digitVal c1 + digitVal c2) = [c1, c2] := by
  have b1 := digitVal_le9 h1
  have b2 := digitVal_le9 h2
  unfold pad2
  have e1 : (10 * digitVal c1 + digitVal c2) / 10 % 10 = digitVal c1 := by omega
  have e2 : (10 * digitVal c1 + digitVal c2) % 10 = digitVal c2 := by omega
  rw [e1, e2, digitChar_digitVal h1, digitChar_digitVal h2]

theorem daysIn_le31 (m y : Nat) : daysIn m y ≤ 31 := by
  unfold daysIn
  split_ifs <;> omega

theorem parseDateTime19_spec {l : List Char} {t : GoTime} (h : parseDateTime19 l = some t) :
    l.length = 19 ∧
    l.take 10 = pad4 t.year ++ '-' :: (pad2 t.month ++ '-' :: pad2 t.day) ∧
    t.year ≤ 9999 ∧ 1 ≤ t.month ∧ t.month ≤ 12 ∧ 1 ≤ t.day ∧ t.day ≤ 31 ∧
    t.hour ≤ 23 ∧ t.minute ≤ 59 ∧ t.second ≤ 59 := by
  unfold parseDateTime19 at h
  split at h
  · rename_i y1 y2 y3 y4 mo1 mo2 d1 d2 h1 h2 mi1 mi2 s1 s2
    split at h
    · rename_i hdig
      dsimp only at h
      split at h
      · rename_i hrange
        injection h with h
        subst h
        dsimp only
        obtain ⟨g1, g2, g3, g4, g5, g6, g7, g8, g9, g10, g11, g12, g13, g14⟩ := hdig
        refine ⟨rfl, ?_, ?_⟩
        · rw [pad4_val g1 g2 g3 g4, pad2_val g5 g6, pad2_val g7 g8]
          rfl
        · have hd31 := daysIn_le31 (10 * digitVal mo1 + digitVal mo2)
            (1000 * digitVal y1 + 100 * digitVal y2 + 10 * digitVal y3 + digitVal y4)
          have b1 := digitVal_le9 g1
          have b2 := digitVal_le9 g2
          have b3 := digitVal_le9 g3
          have b4 := digitVal_le9 g4
          obtain ⟨r1, r2, r3, r4, r5, r6, r7⟩ := hrange
          exact ⟨by omega, r1, r2, r3, by omega, r5, r6, r7⟩
      · exact absurd h (by simp)
    · exact absurd h (by simp)
  · exact absurd h (by simp)

theorem dayKeyFields_pad {y mo d : Nat} (hy : y ≤ 9999) (hm : mo ≤ 99) (hd : d ≤ 99) :
    dayKeyFields ⟨pad4 y ++ '-' :: (pad2 mo ++ '-' :: pad2 d)⟩ = some (y, mo, d) := by
  have m1 : y / 1000 % 10 ≤ 9 := by omega
  have m2 : y / 100 % 10 ≤ 9 := by omega
  have m3 : y / 10 % 10 ≤ 9 := by omega
  have m4 : y % 10 ≤ 9 := by omega
  have m5 : mo / 10 % 10 ≤ 9 := by omega
  have m6 : mo % 10 ≤ 9 := by omega
  have m7 : d / 10 % 10 ≤ 9 := by omega
  have m8 : d % 10 ≤ 9 := by omega
  show dayKeyFieldsL (pad4 y ++ '-' :: (pad2 mo ++ '-' :: pad2 d)) = some (y, mo, d)
  unfold pad4 pad2
  simp only [List.cons_append, List.nil_append]
  simp only [dayKeyFieldsL]
  rw [if_pos]
  · simp only [digitVal_digitChar m1, digitVal_digitChar m2, digitVal_digitChar m3,
      digitVal_digitChar m4, digitVal_digitChar m5, digitVal_digitChar m6,
      digitVal_digitChar m7, digitVal_digitChar m8]
    have ey : 1000 * (y / 1000 % 10) + 100 * (y / 100 % 10) + 10 * (y / 10 % 10) + y % 10 = y := by
      omega
    have em : 10 * (mo / 10 % 10) + mo % 10 = mo := by omega
    have ed : 10 * (d / 10 % 10) + d % 10 = d := by omega
    rw [ey, em, ed]
  · exact ⟨isDigitC_digitChar m1, isDigitC_digitChar m2, isDigitC_digitChar m3,
      isDigitC_digitChar m4, isDigitC_digitChar m5, isDigitC_digitChar m6,
      isDigitC_digitChar m7, isDigitC_digitChar m8⟩

theorem extractDateKey_rfc {iso : String} {t : GoTime} (h : goParseRFC3339 iso = some t) :
    extractDateKey iso = formatDateKey t := by
  unfold extractDateKey
  rw [h]

theorem extractDateKey_fallback {iso : String} (h : goParseRFC3339 iso = none)
    (hlen : 10 ≤ iso.data.length) : extractDateKey iso = ⟨iso.data.take 10⟩ := by
  unfold extractDateKey
  rw [h]
  exact if_pos hlen

theorem extractDateKey_short {iso : String} (h : goParseRFC3339 iso = none)
    (hlen : iso.data.length < 10) : extractDateKey iso = "" := by
  unfold extractDateKey
  rw [h]
  exact if_neg (by omega)

theorem goParseRFC3339_local {iso : String} {t : GoTime} (h : goParseRFC3339 iso = some t) :
    parseCommitLocalClock iso = some t := by
  unfold goParseRFC3339 at h
  split at h
  · rename_i t' heq
    have hlen19 : (iso.data.take 19).length = 19 := (parseDateTime19_spec heq).1
    have hlen : 19 ≤ iso.data.length := by
      rw [List.length_take] at hlen19
      omega
    split at h
    · injection h with h
      subst h
      unfold parseCommitLocalClock
      rw [if_neg (by omega)]
      exact heq
    · exact absurd h (by simp)
  · exact absurd h (by simp)

theorem parseCommitLocalClock_spec {iso : String} {t : GoTime}
    (h : parseCommitLocalClock iso = some t) :
    parseDateTime19 (iso.data.take 19) = some t ∧ 19 ≤ iso.data.length := by
  unfold parseCommitLocalClock at h
  split at h
  · exact absurd h (by simp)
  · rename_i hlen
    exact ⟨h, by omega⟩

theorem localKeyFields {iso : String} {t : GoTime}
    (hp : parseCommitLocalClock iso = some t) :
    dayKeyFields (extractDateKey iso) = some (t.year, t.month, t.day) := by
  obtain ⟨hp', hlen⟩ := parseCommitLocalClock_spec hp
  obtain ⟨hlen19, htake, hy, _, hm, _, hd, _, _, _⟩ := parseDateTime19_spec hp'
  cases hr : goParseRFC3339 iso with
  | some t' =>
    have hpt' := goParseRFC3339_local hr
    rw [hp] at hpt'
    injection hpt' with hpt'
    subst hpt'
    rw [extractDateKey_rfc hr]
    exact dayKeyFields_pad hy (by omega) (by omega)
  | none =>
    rw [extractDateKey_fallback hr (by omega)]
    have h10 : iso.data.take 10 = (iso.data.take 19).take 10 := by
      rw [List.take_take]
      norm_num
    show dayKeyFieldsL (iso.data.take 10) = some (t.year, t.month, t.day)
    rw [h10, htake]
    exact @dayKeyFields_pad t.year t.month t.day hy (by omega) (by omega)

theorem sameCivilDay {x y : String} {tx ty : GoTime}
    (hx : parseCommitLocalClock x = some tx) (hy : parseCommitLocalClock y = some ty)
    (hk : extractDateKey x = extractDateKey y) :
    tx.year = ty.year ∧ tx.month = ty.month ∧ tx.day = ty.day := by
  have h1 := localKeyFields hx
  have h2 := localKeyFields hy
  rw [hk, h2] at h1
  injection h1 with h1
  exact ⟨congrArg Prod.fst h1.symm, congrArg (fun p => p.snd.fst) h1.symm,
    congrArg (fun p => p.snd.snd) h1.symm⟩

theorem toSecs_diff_small {tx ty : GoTime}
    (hsame : tx.year = ty.year ∧ tx.month = ty.month ∧ tx.day = ty.day)
    (hbx : tx.hour ≤ 23 ∧ tx.minute ≤ 59 ∧ tx.second ≤ 59)
    (hby : ty.hour ≤ 23 ∧ ty.minute ≤ 59 ∧ ty.second ≤ 59) :
    (toSecs tx - toSecs ty).natAbs ≤ 86399 := by
  unfold toSecs
  rw [hsame.1, hsame.2.1, hsame.2.2]
  obtain ⟨a1, a2, a3⟩ := hbx
  obtain ⟨b1, b2, b3⟩ := hby
  omega

theorem goSub_small {a b : GoTime} (h : (toSecs a - toSecs b).natAbs ≤ 86399) :
    goSub a b = (toSecs a - toSecs b) * 1000000000 := by
  unfold goSub maxI64 minI64
  have hp : (2 : Int) ^ 63 = 9223372036854775808 := by norm_num
  simp only [hp]
  split_ifs with hc1 hc2
  · omega
  · omega
  · rfl

theorem goAbsDuration_small {x : Int} (h : x.natAbs ≤ 86399000000000) :
    goAbsDuration x = |x| := by
  unfold goAbsDuration minI64
  have hp : (2 : Int) ^ 63 = 9223372036854775808 := by norm_num
  simp only [hp]
  split_ifs with hc1 hc2
  · omega
  · exact (abs_of_neg hc1).symm
  · exact (abs_of_nonneg (le_of_not_lt hc1)).symm

/-! ## Deduplication and bucketing facts of the aggregator -/

theorem foldl_filter_insertByHash (email : String) (cs : List Commit) (acc : List Commit) :
    cs.foldl (fun acc c => if matchesIdentity email c then insertByHash acc c else acc) acc
      = (cs.filter (matchesIdentity email)).foldl insertByHash acc := by
  induction cs generalizing acc with
  | nil => rfl
  | cons a l ih =>
    by_cases h : matchesIdentity email a
    · simp [List.filter_cons, h, ih]
    · have h' : matchesIdentity email a = false := by
        rcases hb : matchesIdentity email a with _ | _
        · rfl
        · exact absurd hb h
      simp [List.filter_cons, h', ih]

theorem collectCommits_eq (email : String) (bls : List (List Commit)) :
    collectCommits email bls = (matchingStream email bls).foldl insertByHash [] := by
  unfold collectCommits matchingStream
  rw [List.foldl_flatten, List.foldl_map]
  congr 1
  funext acc cs
  exact foldl_filter_insertByHash email cs acc

theorem insertByHash_hashNodup {acc : List Commit} {c : Commit}
    (h : (acc.map Commit.hash).Nodup) : ((insertByHash acc c).map Commit.hash).Nodup := by
  unfold insertByHash
  split
  · exact h
  · rename_i hany
    rw [List.map_append, List.nodup_append]
    refine ⟨h, by simp, ?_⟩
    intro x hx
    simp only [List.map_cons, List.map_nil, List.mem_singleton]
    intro he
    rw [List.mem_map] at hx
    obtain ⟨c2, hc2, hc2h⟩ := hx
    exact hany (List.any_eq_true.mpr ⟨c2, hc2, by simp [hc2h, he]⟩)

theorem foldl_insertByHash_hashNodup (l : List Commit) :
    ∀ acc : List Commit, (acc.map Commit.hash).Nodup →
      ((l.foldl insertByHash acc).map Commit.hash).Nodup := by
  induction l with
  | nil => exact fun acc h => h
  | cons a l ih => exact fun acc h => ih _ (insertByHash_hashNodup h)

theorem mem_foldl_insertByHash (l : List Commit) :
    ∀ (acc : List Commit) (c : Commit),
      c ∈ l.foldl insertByHash acc ↔
        c ∈ acc ∨ (acc.any (fun x => x.hash == c.hash) = false ∧
          l.find? (fun x => x.hash == c.hash) = some c) := by
  induction l with
  | nil => intro acc c; simp
  | cons a l ih =>
    intro acc c
    rw [List.foldl_cons, ih]
    by_cases hmem : acc.any (fun x => x.hash == a.hash) = true
    · have hins : insertByHash acc a = acc := by unfold insertByHash; rw [if_pos hmem]
      rw [hins]
      by_cases hh : (a.hash == c.hash) = true
      · have hac : a.hash = c.hash := by simpa using hh
        have hpred : (fun x : Commit => x.hash == c.hash) = (fun x => x.hash == a.hash) := by
          funext x
          rw [hac]
        rw [@List.find?_cons_of_pos _ (fun x : Commit => x.hash == c.hash) a l hh, hpred, hmem]
        simp
      · have hh' : (a.hash == c.hash) = false := by
          rcases hb : (a.hash == c.hash) with _ | _
          · rfl
          · exact absurd hb hh
        rw [@List.find?_cons_of_neg _ (fun x : Commit => x.hash == c.hash) a l (by simp [hh'])]
    · have hmem' : acc.any (fun x => x.hash == a.hash) = false := by
        rcases hb : acc.any (fun x => x.hash == a.hash) with _ | _
        · rfl
        · exact absurd hb hmem
      have hins : insertByHash acc a = acc ++ [a] := by
        unfold insertByHash
        rw [if_neg (by simp [hmem'])]
      rw [hins]
      by_cases hh : (a.hash == c.hash) = true
      · have hac : a.hash = c.hash := by simpa using hh
        rw [@List.find?_cons_of_pos _ (fun x : Commit => x.hash == c.hash) a l hh]
        constructor
        · rintro (h | ⟨h1, h2⟩)
          · rcases List.mem_append.mp h with h | h
            · exact Or.inl h
            · have hca : c = a := by simpa using h
              subst hca
              refine Or.inr ⟨?_, rfl⟩
              rw [List.any_eq_false]
              rw [List.any_eq_false] at hmem'
              intro x hx
              simpa [← hac] using hmem' x hx
          · exfalso
            rw [List.any_eq_false] at h1
            exact h1 a (by simp) (by simp [hac])
        · rintro (h | ⟨h1, h2⟩)
          · exact Or.inl (List.mem_append.mpr (Or.inl h))
          · have hca : a = c := by injection h2
            exact Or.inl (List.mem_append.mpr (Or.inr (by simp [hca])))
      · have hh' : (a.hash == c.hash) = false := by
          rcases hb : (a.hash == c.hash) with _ | _
          · rfl
          · exact absurd hb hh
        rw [@List.find?_cons_of_neg _ (fun x : Commit => x.hash == c.hash) a l (by simp [hh'])]
        constructor
        · rintro (h | ⟨h1, h2⟩)
          · rcases List.mem_append.mp h with h | h
            · exact Or.inl h
            · exfalso
              have hca : c = a := by simpa using h
              rw [hca] at hh'
              simp at hh'
          · rw [List.any_append, Bool.or_eq_false_iff] at h1
            exact Or.inr ⟨h1.1, h2⟩
        · rintro (h | ⟨h1, h2⟩)
          · exact Or.inl (List.mem_append.mpr (Or.inl h))
          · refine Or.inr ⟨?_, h2⟩
            rw [List.any_append, Bool.or_eq_false_iff]
            exact ⟨h1, by simp [hh']⟩

theorem addToBucket_flatten (m : List (String × List Commit)) (k : String) (c : Commit) :
    (((addToBucket m k c).map Prod.snd).flatten).Perm
      (((m.map Prod.snd).flatten) ++ [c]) := by
  induction m with
  | nil => simp [addToBucket]
  | cons kv rest ih =>
    obtain ⟨k', cs⟩ := kv
    unfold addToBucket
    by_cases hk : (k' == k) = true
    · rw [if_pos hk]
      simp only [List.map_cons, List.flatten_cons]
      rw [List.append_assoc, List.append_assoc]
      exact List.Perm.append_left cs List.perm_append_comm
    · rw [if_neg hk]
      simp only [List.map_cons, List.flatten_cons]
      rw [List.append_assoc]
      exact List.Perm.append_left cs ih

theorem buildBuckets_step_flatten (cs : List Commit) :
    ∀ m : List (String × List Commit),
      ((cs.foldl (fun m c =>
          let k := extractDateKey c.date
          if k == "" then m else addToBucket m k c) m).map Prod.snd).flatten.Perm
        (((m.map Prod.snd).flatten) ++
          cs.filter (fun c => !(extractDateKey c.date == ""))) := by
  induction cs with
  | nil => intro m; simp
  | cons c cs ih =>
    intro m
    rw [List.foldl_cons]
    by_cases hk : (extractDateKey c.date == "") = true
    · simp only [hk, if_pos]
      refine (ih m).trans ?_
      rw [List.filter_cons]
      simp [hk]
    · have hk' : (extractDateKey c.date == "") = false := by
        rcases hb : (extractDateKey c.date == "") with _ | _
        · rfl
        · exact absurd hb hk
      simp only [hk', Bool.false_eq_true, if_false]
      refine (ih (addToBucket m (extractDateKey c.date) c)).trans ?_
      rw [List.filter_cons]
      simp only [hk', Bool.not_false, if_pos]
      refine (List.Perm.append_right _ (addToBucket_flatten m (extractDateKey c.date) c)).trans ?_
      rw [List.append_assoc]
      exact List.Perm.refl _

theorem buildBuckets_flatten (cs : List Commit) :
    ((buildBuckets cs).map Prod.snd).flatten.Perm
      (cs.filter (fun c => !(extractDateKey c.date == ""))) := by
  have := buildBuckets_step_flatten cs []
  simpa [buildBuckets] using this

/-- The per-bucket invariant: nonempty keys, and every commit filed under its
own date key. -/
def BucketsInv (m : List (String × List Commit)) : Prop :=
  ∀ kv ∈ m, kv.fst ≠ "" ∧ ∀ c ∈ kv.snd, extractDateKey c.date = kv.fst

theorem addToBucket_inv {m : List (String × List Commit)} {k : String} {c : Commit}
    (hm : BucketsInv m) (hk : k ≠ "") (hc : extractDateKey c.date = k) :
    BucketsInv (addToBucket m k c) := by
  induction m with
  | nil =>
    intro kv hkv
    simp only [addToBucket, List.mem_singleton] at hkv
    subst hkv
    exact ⟨hk, by intro c' hc'; simp at hc'; subst hc'; exact hc⟩
  | cons kv0 rest ih =>
    obtain ⟨k', cs⟩ := kv0
    have hhead := hm (k', cs) (by simp)
    have hrest : BucketsInv rest := fun kv hkv => hm kv (by simp [hkv])
    unfold addToBucket
    by_cases hkk : (k' == k) = true
    · rw [if_pos hkk]
      intro kv hkv
      rcases List.mem_cons.mp hkv with h | h
      · subst h
        refine ⟨hhead.1, ?_⟩
        intro c' hc'
        rcases List.mem_append.mp hc' with h' | h'
        · exact hhead.2 c' h'
        · have : c' = c := by simpa using h'
          subst this
          rw [hc]
          have hkk' : k' = k := by simpa using hkk
          exact hkk'.symm
      · exact hrest kv h
    · rw [if_neg hkk]
      intro kv hkv
      rcases List.mem_cons.mp hkv with h | h
      · subst h
        exact hhead
      · exact ih hrest kv h

theorem buildBuckets_inv (cs : List Commit) : BucketsInv (buildBuckets cs) := by
  unfold buildBuckets
  suffices h : ∀ m : List (String × List Commit), BucketsInv m →
      BucketsInv (cs.foldl (fun m c =>
        let k := extractDateKey c.date
        if k == "" then m else addToBucket m k c) m) by
    exact h [] (by intro kv hkv; simp at hkv)
  induction cs with
  | nil => exact fun m hm => hm
  | cons c cs ih =>
    intro m hm
    rw [List.foldl_cons]
    by_cases hk : (extractDateKey c.date == "") = true
    · simp only [hk, if_pos]
      exact ih m hm
    · have hk' : (extractDateKey c.date == "") = false := by
        rcases hb : (extractDateKey c.date == "") with _ | _
        · rfl
        · exact absurd hb hk
      simp only [hk', Bool.false_eq_true, if_false]
      exact ih _ (addToBucket_inv hm (by simpa using hk') rfl)

theorem sortBuckets_flatten (m : List (String × List Commit)) :
    ((sortBuckets m).map Prod.snd).flatten.Perm ((m.map Prod.snd).flatten) := by
  induction m with
  | nil => simp [sortBuckets]
  | cons kv rest ih =>
    simp only [sortBuckets, List.map_cons, List.flatten_cons]
    refine List.Perm.append (List.perm_insertionSort commitPrec kv.snd) ?_
    simpa [sortBuckets] using ih

theorem sortBuckets_inv {m : List (String × List Commit)} (hm : BucketsInv m) :
    BucketsInv (sortBuckets m) := by
  intro kv hkv
  unfold sortBuckets at hkv
  rw [List.mem_map] at hkv
  obtain ⟨kv0, hkv0, hkv0e⟩ := hkv
  subst hkv0e
  have h0 := hm kv0 hkv0
  refine ⟨h0.1, ?_⟩
  intro c hc
  exact h0.2 c ((List.perm_insertionSort commitPrec kv0.snd).mem_iff.mp hc)

theorem bucketCommits_mkRepoResult (path name email : String) (bls : List (List Commit)) :
    (bucketCommits (mkRepoResult path name email bls)).Perm
      ((collectCommits email bls).filter (fun c => !(extractDateKey c.date == ""))) := by
  unfold bucketCommits mkRepoResult
  exact (sortBuckets_flatten _).trans (buildBuckets_flatten _)

theorem mem_collectCommits {email : String} {bls : List (List Commit)} {c : Commit}
    (h : c ∈ collectCommits email bls) :
    (matchingStream email bls).find? (fun x => x.hash == c.hash) = some c := by
  rw [collectCommits_eq] at h
  rcases (mem_foldl_insertByHash (matchingStream email bls) [] c).mp h with h' | ⟨_, h2⟩
  · simp at h'
  · exact h2

theorem collectCommits_hashNodup (email : String) (bls : List (List Commit)) :
    ((collectCommits email bls).map Commit.hash).Nodup := by
  rw [collectCommits_eq]
  exact foldl_insertByHash_hashNodup _ [] (by simp)

theorem mem_matchingStream_matches {email : String} {bls : List (List Commit)} {c : Commit}
    (h : c ∈ matchingStream email bls) : matchesIdentity email c = true := by
  unfold matchingStream at h
  rw [List.mem_flatten] at h
  obtain ⟨l, hl, hcl⟩ := h
  rw [List.mem_map] at hl
  obtain ⟨cs, _, hcs⟩ := hl
  subst hcs
  exact (List.mem_filter.mp hcl).2

/-! ## Block structure facts -/

theorem entryAt_of_drop {l : List ChangelogEntry} {i : Nat} {e : ChangelogEntry}
    {rest : List ChangelogEntry} (h : l.drop i = e :: rest) : entryAt l i = e := by
  have h1 : (l.drop i)[0]? = l[i + 0]? := List.getElem?_drop l i 0
  rw [h] at h1
  unfold entryAt
  rw [List.getD_eq_getElem?_getD]
  simp only [Nat.add_zero] at h1
  rw [← h1]
  simp

theorem buildBlocksGo_spec :
    ∀ (rest : List ChangelogEntry) (i startIdx : Nat) (repo : String) (l : List ChangelogEntry),
      l.drop i = rest →
      i + rest.length = l.length →
      startIdx < i →
      (∀ j, startIdx ≤ j → j < i → (entryAt l j).repoName = repo) →
      ∀ b ∈ buildBlocksGo rest i startIdx repo,
        b.startIdx ≤ b.endIdx ∧ b.endIdx < l.length ∧
          ∀ j, b.startIdx ≤ j → j ≤ b.endIdx → (entryAt l j).repoName = b.repoName := by
  intro rest
  induction rest with
  | nil =>
    intro i startIdx repo l hdrop hlen hlt hprev b hb
    simp only [buildBlocksGo, List.mem_singleton] at hb
    subst hb
    dsimp only
    simp only [List.length_nil, Nat.add_zero] at hlen
    refine ⟨by omega, by omega, ?_⟩
    intro j hj1 hj2
    exact hprev j hj1 (by omega)
  | cons e rest ih =>
    intro i startIdx repo l hdrop hlen hlt hprev b hb
    have hEi : entryAt l i = e := entryAt_of_drop hdrop
    have hdrop' : l.drop (i + 1) = rest := by
      have hdd : List.drop 1 (l.drop i) = l.drop (i + 1) := List.drop_drop 1 i l
      rw [hdrop] at hdd
      simpa using hdd.symm
    unfold buildBlocksGo at hb
    by_cases hrepo : (e.repoName == repo) = true
    · rw [if_pos hrepo] at hb
      have hrepo' : e.repoName = repo := by simpa using hrepo
      refine ih (i + 1) startIdx repo l hdrop' (by simp at hlen ⊢; omega) (by omega) ?_ b hb
      intro j hj1 hj2
      by_cases hji : j < i
      · exact hprev j hj1 hji
      · have : j = i := by omega
        subst this
        rw [hEi, hrepo']
    · rw [if_neg hrepo] at hb
      rcases List.mem_cons.mp hb with hb | hb
      · subst hb
        dsimp only
        refine ⟨by omega, ?_, ?_⟩
        · simp only [List.length_cons] at hlen
          omega
        · intro j hj1 hj2
          exact hprev j hj1 (by omega)
      · refine ih (i + 1) i e.repoName l hdrop' (by simp at hlen ⊢; omega) (by omega) ?_ b hb
        intro j hj1 hj2
        have : j = i := by omega
        subst this
        rw [hEi]

theorem buildBlocks_spec {l : List ChangelogEntry} {b : Block} (hb : b ∈ buildBlocks l) :
    b.startIdx ≤ b.endIdx ∧ b.endIdx < l.length ∧
      ∀ j, b.startIdx ≤ j → j ≤ b.endIdx → (entryAt l j).repoName = b.repoName := by
  cases l with
  | nil => exact absurd hb (by simp [buildBlocks])
  | cons e rest =>
    refine buildBlocksGo_spec rest 1 0 e.repoName (e :: rest) rfl (by simp [Nat.add_comm]) (by omega)
      ?_ b hb
    intro j hj1 hj2
    have : j = 0 := by omega
    subst this
    rfl

/-! ## Entry collection facts -/

theorem lookupDate_mem {m : List (String × List Commit)} {d : String} {c : Commit}
    (h : c ∈ lookupDate m d) : ∃ kv ∈ m, kv.fst = d ∧ c ∈ kv.snd := by
  unfold lookupDate at h
  split at h
  · rename_i kv heq
    have h1 := List.find?_some heq
    have h2 := List.mem_of_find?_eq_some heq
    exact ⟨kv, h2, by simpa using h1, h⟩
  · exact absurd h (by simp)

theorem mem_entriesAt {results : List RepoResult} {d : String} {e : ChangelogEntry}
    (h : e ∈ entriesAt results d) :
    e.dateKey = d ∧ ∃ r ∈ results, e.repoName = r.name ∧ e.repoPath = r.path ∧
      e.commit ∈ lookupDate r.commitsByDate d := by
  unfold entriesAt at h
  rw [List.mem_flatten] at h
  obtain ⟨l, hl, hel⟩ := h
  rw [List.mem_map] at hl
  obtain ⟨r, hr, hrl⟩ := hl
  subst hrl
  unfold repoEntries at hel
  rw [List.mem_map] at hel
  obtain ⟨c, hc, hce⟩ := hel
  subst hce
  exact ⟨rfl, r, hr, rfl, rfl, hc⟩

/-! ## Coordinator facts -/

theorem runWorker_error_shape {env : RepoEnv} {e : AggErr} (h : runWorker env = Except.error e) :
    (env.branchList = none ∧ e = AggErr.branchList env.path) ∨
      (∃ bs b, env.branchList = some bs ∧ b ∈ bs ∧ b.res = FetchRes.err ∧
        e = AggErr.fetch b.branch env.path) := by
  unfold runWorker at h
  split at h
  · rename_i hnone
    injection h with h
    exact Or.inl ⟨hnone, h.symm⟩
  · rename_i bs hsome
    split at h
    · rename_i b hfind
      injection h with h
      refine Or.inr ⟨bs, b, hsome, List.mem_of_find?_eq_some hfind, ?_, h.symm⟩
      have hbf := List.find?_some hfind
      unfold branchFailed at hbf
      split at hbf
      · rename_i heq
        exact heq
      · exact absurd hbf (by simp)
    · exact absurd h (by simp)

theorem runWorker_eq_none {env : RepoEnv} (h : env.branchList = none) :
    runWorker env = Except.error (AggErr.branchList env.path) := by
  unfold runWorker
  rw [h]

theorem runWorker_eq_find {env : RepoEnv} {bs : List BranchFetch}
    (h : env.branchList = some bs) :
    runWorker env =
      match bs.find? branchFailed with
      | some b => Except.error (AggErr.fetch b.branch env.path)
      | none => Except.ok (mkRepoResult env.path (baseName env.path) env.email
          (bs.map fetchedCommits)) := by
  unfold runWorker
  rw [h]

theorem workerFailsB_none {env : RepoEnv} (h : env.branchList = none) :
    workerFailsB env = true := by
  unfold workerFailsB
  rw [h]

theorem workerFailsB_some {env : RepoEnv} {bs : List BranchFetch}
    (h : env.branchList = some bs) : workerFailsB env = bs.any branchFailed := by
  unfold workerFailsB
  rw [h]

theorem runWorker_fails_iff (env : RepoEnv) :
    (∃ e, runWorker env = Except.error e) ↔ workerFailsB env = true := by
  cases hbl : env.branchList with
  | none =>
    rw [workerFailsB_none hbl]
    simp only [iff_true]
    exact ⟨AggErr.branchList env.path, runWorker_eq_none hbl⟩
  | some bs =>
    rw [workerFailsB_some hbl]
    cases hfind : bs.find? branchFailed with
    | none =>
      constructor
      · intro ⟨e, he⟩
        rw [runWorker_eq_find hbl, hfind] at he
        exact absurd he (by simp)
      · intro h
        rw [List.any_eq_true] at h
        obtain ⟨b, hb, hbf⟩ := h
        rw [List.find?_eq_none] at hfind
        exact absurd hbf (hfind b hb)
    | some b =>
      constructor
      · intro _
        rw [List.any_eq_true]
        exact ⟨b, List.mem_of_find?_eq_some hfind, List.find?_some hfind⟩
      · intro _
        exact ⟨AggErr.fetch b.branch env.path, by rw [runWorker_eq_find hbl, hfind]⟩

theorem runWorker_ok_shape {env : RepoEnv} {r : RepoResult} (h : runWorker env = Except.ok r) :
    ∃ bs, env.branchList = some bs ∧ (∀ b ∈ bs, b.res ≠ FetchRes.err) ∧
      r = mkRepoResult env.path (baseName env.path) env.email (bs.map fetchedCommits) := by
  unfold runWorker at h
  split at h
  · exact absurd h (by simp)
  · rename_i bs hsome
    split at h
    · exact absurd h (by simp)
    · rename_i hfind
      injection h with h
      refine ⟨bs, hsome, ?_, h.symm⟩
      intro b hb hbe
      rw [List.find?_eq_none] at hfind
      exact hfind b hb (by unfold branchFailed; rw [hbe])

theorem runAll_cons (env : RepoEnv) (rest : List RepoEnv) :
    runAll (env :: rest) =
      match runWorker env with
      | Except.error e => Except.error e
      | Except.ok r =>
        match runAll rest with
        | Except.error e => Except.error e
        | Except.ok rs => Except.ok (r :: rs) := rfl

theorem runAll_ok_forward {envs : List RepoEnv} {rs : List RepoResult}
    (h : runAll envs = Except.ok rs) :
    ∀ env ∈ envs, ∃ r ∈ rs, runWorker env = Except.ok r := by
  induction envs generalizing rs with
  | nil => intro env henv; simp at henv
  | cons env0 rest ih =>
    rw [runAll_cons] at h
    split at h
    · exact absurd h (by simp)
    · rename_i r hr
      split at h
      · exact absurd h (by simp)
      · rename_i rs' hrs'
        injection h with h
        subst h
        intro env henv
        rcases List.mem_cons.mp henv with henv | henv
        · subst henv
          exact ⟨r, by simp, hr⟩
        · obtain ⟨r', hr1, hr2⟩ := ih hrs' env henv
          exact ⟨r', by simp [hr1], hr2⟩

theorem runAll_ok_back {envs : List RepoEnv} {rs : List RepoResult}
    (h : runAll envs = Except.ok rs) :
    ∀ r ∈ rs, ∃ env ∈ envs, runWorker env = Except.ok r := by
  induction envs generalizing rs with
  | nil =>
    simp only [runAll] at h
    injection h with h
    subst h
    intro r hr
    simp at hr
  | cons env0 rest ih =>
    rw [runAll_cons] at h
    split at h
    · exact absurd h (by simp)
    · rename_i r0 hr0
      split at h
      · exact absurd h (by simp)
      · rename_i rs' hrs'
        injection h with h
        subst h
        intro r hr
        rcases List.mem_cons.mp hr with hr | hr
        · subst hr
          exact ⟨env0, by simp, hr0⟩
        · obtain ⟨env', h1, h2⟩ := ih hrs' r hr
          exact ⟨env', by simp [h1], h2⟩

theorem runAll_error_iff {envs : List RepoEnv} :
    (∃ e, runAll envs = Except.error e) ↔ ∃ env ∈ envs, workerFailsB env = true := by
  induction envs with
  | nil => simp [runAll]
  | cons env rest ih =>
    rw [runAll_cons]
    constructor
    · intro ⟨e, h⟩
      split at h
      · rename_i e' he'
        exact ⟨env, by simp, (runWorker_fails_iff env).mp ⟨e', he'⟩⟩
      · split at h
        · rename_i e' he'
          obtain ⟨env', h1, h2⟩ := ih.mp ⟨e', he'⟩
          exact ⟨env', by simp [h1], h2⟩
        · exact absurd h (by simp)
    · intro ⟨env', henv', hfail⟩
      rcases List.mem_cons.mp henv' with h | h
      · subst h
        obtain ⟨e, he⟩ := (runWorker_fails_iff env').mpr hfail
        rw [he]
        exact ⟨e, rfl⟩
      · split
        · rename_i e' _
          exact ⟨e', rfl⟩
        · obtain ⟨e, he⟩ := ih.mpr ⟨env', h, hfail⟩
          rw [he]
          exact ⟨e, rfl⟩

theorem runAll_error_mem {envs : List RepoEnv} {e : AggErr} (h : runAll envs = Except.error e) :
    ∃ env ∈ envs, runWorker env = Except.error e := by
  induction envs with
  | nil => exact absurd h (by simp [runAll])
  | cons env rest ih =>
    rw [runAll_cons] at h
    split at h
    · rename_i e' he'
      injection h with h
      subst h
      exact ⟨env, by simp, he'⟩
    · split at h
      · rename_i e' he'
        injection h with h
        subst h
        obtain ⟨env', h1, h2⟩ := ih he'
        exact ⟨env', by simp [h1], h2⟩
      · exact absurd h (by simp)

/-! ## Wellformedness of aggregator output -/

theorem mkRepoResult_inv (path name email : String) (bls : List (List Commit)) :
    BucketsInv (mkRepoResult path name email bls).commitsByDate :=
  sortBuckets_inv (buildBuckets_inv _)

theorem runAll_ok_wf {envs : List RepoEnv} {rs : List RepoResult}
    (h : runAll envs = Except.ok rs) : WellFormedResults rs := by
  intro r hr
  obtain ⟨env, _, hw⟩ := runAll_ok_back h r hr
  obtain ⟨bs, _, _, hmk⟩ := runWorker_ok_shape hw
  subst hmk
  intro kv hkv
  exact mkRepoResult_inv env.path (baseName env.path) env.email (bs.map fetchedCommits) kv hkv

theorem matchingStream_nil {email : String} {bls : List (List Commit)}
    (h : ∀ cs ∈ bls, ∀ c ∈ cs, matchesIdentity email c = false) :
    matchingStream email bls = [] := by
  unfold matchingStream
  rw [List.flatten_eq_nil_iff]
  intro l hl
  rw [List.mem_map] at hl
  obtain ⟨cs, hcs, hcsl⟩ := hl
  subst hcsl
  rw [List.filter_eq_nil_iff]
  intro c hc
  simp [h cs hcs c hc]

theorem collectCommits_nil {email : String} {bls : List (List Commit)}
    (h : ∀ cs ∈ bls, ∀ c ∈ cs, matchesIdentity email c = false) :
    collectCommits email bls = [] := by
  rw [collectCommits_eq, matchingStream_nil h]
  rfl

/-! ## Option-valued traversal facts -/

theorem mapM_option_isSome {α β : Type} {f : α → Option β} {l : List α}
    (h : ∀ a ∈ l, (f a).isSome = true) : (l.mapM f).isSome = true := by
  induction l with
  | nil => rfl
  | cons a l ih =>
    rw [List.mapM_cons]
    have ha := h a (by simp)
    rcases hfa : f a with _ | b
    · rw [hfa] at ha
      simp at ha
    · have hl := ih (fun x hx => h x (by simp [hx]))
      rcases hml : l.mapM f with _ | bs
      · rw [hml] at hl
        simp at hl
      · rfl

theorem mapM_option_congr {α β : Type} {f g : α → Option β} {l : List α}
    (h : ∀ a ∈ l, f a = g a) : l.mapM f = l.mapM g := by
  induction l with
  | nil => rfl
  | cons a l ih =>
    rw [List.mapM_cons, List.mapM_cons, h a (by simp), ih (fun x hx => h x (by simp [hx]))]

theorem mapM_option_eq_none_of_mem {α β : Type} {f : α → Option β} {l : List α} {a : α}
    (ha : a ∈ l) (hf : f a = none) : l.mapM f = none := by
  induction l with
  | nil => simp at ha
  | cons x l ih =>
    rw [List.mapM_cons]
    rcases List.mem_cons.mp ha with h | h
    · subst h
      rw [hf]
      rfl
    · rcases hfx : f x with _ | b
      · rfl
      · rw [ih h]
        rfl

/-! ## Sorted permutations with locally antisymmetric orders -/

theorem perm_sorted_eq {α : Type} {r : α → α → Prop} :
    ∀ {l₁ l₂ : List α}, l₁.Perm l₂ → l₁.Pairwise r → l₂.Pairwise r →
      (∀ a ∈ l₁, ∀ b ∈ l₁, r a b → r b a → a = b) → l₁ = l₂
  | [], l₂, hp, _, _, _ => hp.nil_eq
  | a :: t₁, [], hp, _, _, _ =>
    absurd (hp.mem_iff.mp (List.mem_cons_self a t₁)) (List.not_mem_nil a)
  | a :: t₁, b :: t₂, hp, hs₁, hs₂, hanti => by
    have hab : a = b := by
      by_contra hne
      have hbmem : b ∈ a :: t₁ := hp.mem_iff.mpr (by simp)
      have hamem : a ∈ b :: t₂ := hp.mem_iff.mp (by simp)
      have hbt : b ∈ t₁ := by
        rcases List.mem_cons.mp hbmem with h | h
        · exact absurd h.symm hne
        · exact h
      have hat : a ∈ t₂ := by
        rcases List.mem_cons.mp hamem with h | h
        · exact absurd h hne
        · exact h
      have hr1 : r a b := (List.pairwise_cons.mp hs₁).1 b hbt
      have hr2 : r b a := (List.pairwise_cons.mp hs₂).1 a hat
      exact hne (hanti a (by simp) b (by simp [hbt]) hr1 hr2)
    subst hab
    have hp' : t₁.Perm t₂ := hp.cons_inv
    have ht : t₁ = t₂ :=
      perm_sorted_eq hp' (List.pairwise_cons.mp hs₁).2 (List.pairwise_cons.mp hs₂).2
        (fun x hx y hy hr1 hr2 => hanti x (by simp [hx]) y (by simp [hy]) hr1 hr2)
    rw [ht]

/-! ## Permutation congruence of the pretty pipeline -/

theorem perm_isEmpty {α : Type} {l₁ l₂ : List α} (h : l₁.Perm l₂) :
    l₁.isEmpty = l₂.isEmpty := by
  cases l₁ with
  | nil =>
    rw [h.nil_eq.symm]
  | cons a t =>
    cases l₂ with
    | nil => exact absurd (h.mem_iff.mp (List.mem_cons_self a t)) (List.not_mem_nil a)
    | cons b t' => rfl

theorem entriesAt_perm {rs₁ rs₂ : List RepoResult} (h : rs₁.Perm rs₂) (d : String) :
    (entriesAt rs₁ d).Perm (entriesAt rs₂ d) :=
  List.Perm.flatten (h.map _)

theorem mapKeys_perm {rs₁ rs₂ : List RepoResult} (h : rs₁.Perm rs₂) :
    (mapKeys rs₁).Perm (mapKeys rs₂) :=
  List.Perm.dedup (List.Perm.flatten (h.map _))

theorem dayKeys_perm {rs₁ rs₂ : List RepoResult} (h : rs₁.Perm rs₂) :
    (dayKeys rs₁).Perm (dayKeys rs₂) := by
  unfold dayKeys
  rw [List.filter_congr (fun d _ => by
    rw [perm_isEmpty (entriesAt_perm h d)] :
      ∀ d ∈ mapKeys rs₁, (!(entriesAt rs₁ d).isEmpty) = (!(entriesAt rs₂ d).isEmpty))]
  exact (mapKeys_perm h).filter _

theorem sortedDayKeys_perm_eq {rs₁ rs₂ : List RepoResult} (h : rs₁.Perm rs₂) :
    sortedDayKeys rs₁ = sortedDayKeys rs₂ := by
  unfold sortedDayKeys
  have hperm : (List.insertionSort strPrec (dayKeys rs₁)).Perm
      (List.insertionSort strPrec (dayKeys rs₂)) :=
    (List.perm_insertionSort strPrec (dayKeys rs₁)).trans
      ((dayKeys_perm h).trans (List.perm_insertionSort strPrec (dayKeys rs₂)).symm)
  exact List.eq_of_perm_of_sorted hperm
    (List.sorted_insertionSort strPrec (dayKeys rs₁))
    (List.sorted_insertionSort strPrec (dayKeys rs₂))

theorem sortEntries_perm_eq {l₁ l₂ : List ChangelogEntry} (h : l₁.Perm l₂)
    (hnd : (l₁.map entryKey).Nodup) : sortEntries l₁ = sortEntries l₂ := by
  unfold sortEntries
  have hperm : (List.insertionSort entPrec l₁).Perm (List.insertionSort entPrec l₂) :=
    (List.perm_insertionSort entPrec l₁).trans
      (h.trans (List.perm_insertionSort entPrec l₂).symm)
  refine perm_sorted_eq hperm
    (List.sorted_insertionSort entPrec l₁) (List.sorted_insertionSort entPrec l₂) ?_
  intro a ha b hb hr1 hr2
  have ha' : a ∈ l₁ := (List.perm_insertionSort entPrec l₁).mem_iff.mp ha
  have hb' : b ∈ l₁ := (List.perm_insertionSort entPrec l₁).mem_iff.mp hb
  exact List.inj_on_of_nodup_map hnd ha' hb'
    (tripleLe_antisymm_key (entPrec_iff.mp hr1) (entPrec_iff.mp hr2))

theorem printPretty_perm_eq {rs₁ rs₂ : List RepoResult} (h : rs₁.Perm rs₂)
    (hnd : ∀ d, ((entriesAt rs₁ d).map entryKey).Nodup) :
    printPretty rs₁ = printPretty rs₂ := by
  have hkeys := sortedDayKeys_perm_eq h
  have hday : ∀ d, sortEntries (entriesAt rs₁ d) = sortEntries (entriesAt rs₂ d) :=
    fun d => sortEntries_perm_eq (entriesAt_perm h d) (hnd d)
  unfold printPretty
  rw [perm_isEmpty (dayKeys_perm h), hkeys]
  split_ifs with hc
  · rfl
  · rw [mapM_option_congr (fun d _ => by rw [hday d] :
      ∀ d ∈ sortedDayKeys rs₂,
        renderDay d (sortEntries (entriesAt rs₁ d)) = renderDay d (sortEntries (entriesAt rs₂ d)))]

/-! ## Remaining supporting facts -/

theorem entryAt_mem {l : List ChangelogEntry} {i : Nat} (h : i < l.length) : entryAt l i ∈ l := by
  unfold entryAt
  rw [List.getD_eq_getElem _ _ h]
  exact List.getElem_mem h

theorem mem_sortEntries {l : List ChangelogEntry} {e : ChangelogEntry}
    (h : e ∈ sortEntries l) : e ∈ l :=
  (List.perm_insertionSort entPrec l).mem_iff.mp h

theorem wf_entry_key {results : List RepoResult} {d : String} {e : ChangelogEntry}
    (hwf : WellFormedResults results) (he : e ∈ entriesAt results d) :
    extractDateKey e.commit.date = d ∧ d ≠ "" := by
  obtain ⟨_, r, hr, _, _, hc⟩ := mem_entriesAt he
  obtain ⟨kv, hkv, hkvd, hck⟩ := lookupDate_mem hc
  have hw := hwf r hr kv hkv
  subst hkvd
  exact ⟨hw.2 e.commit hck, hw.1⟩

theorem parsed_bounds {iso : String} {t : GoTime} (h : parseCommitLocalClock iso = some t) :
    t.hour ≤ 23 ∧ t.minute ≤ 59 ∧ t.second ≤ 59 := by
  obtain ⟨h19, _⟩ := parseCommitLocalClock_spec h
  obtain ⟨_, _, _, _, _, _, _, hh, hmi, hs⟩ := parseDateTime19_spec h19
  exact ⟨hh, hmi, hs⟩

theorem blockSegment_sublist (l : List ChangelogEntry) (b : Block) :
    (blockSegment l b).Sublist l :=
  (List.take_sublist _ _).trans (List.drop_sublist _ _)

theorem renderEntry_isSome {e : ChangelogEntry} (h : 7 ≤ e.commit.hash.data.length) :
    (renderEntry e).isSome = true := by
  unfold renderEntry
  rw [if_neg (by omega)]
  rfl

theorem renderBlock_isSome {entries : List ChangelogEntry} {b : Block}
    (h : ∀ e ∈ blockSegment entries b, 7 ≤ e.commit.hash.data.length) :
    (renderBlock entries b).isSome = true := by
  unfold renderBlock
  have hm := mapM_option_isSome (f := renderEntry) (l := blockSegment entries b)
    (fun e he => renderEntry_isSome (h e he))
  rcases hmm : (blockSegment entries b).mapM renderEntry with _ | cs
  · rw [hmm] at hm
    simp at hm
  · rfl

theorem renderDay_isSome {d : String} {entries : List ChangelogEntry}
    (h : ∀ e ∈ entries, 7 ≤ e.commit.hash.data.length) :
    (renderDay d entries).isSome = true := by
  unfold renderDay
  have hm := mapM_option_isSome (f := renderBlock entries) (l := buildBlocks entries)
    (fun b hb => renderBlock_isSome
      (fun e he => h e ((blockSegment_sublist entries b).mem he)))
  rcases hmm : (buildBlocks entries).mapM (renderBlock entries) with _ | bs
  · rw [hmm] at hm
    simp at hm
  · rfl

theorem except_map_error {α β ε : Type} (f : α → β) (e : ε) :
    (Except.error e : Except ε α).map f = Except.error e := rfl

theorem except_map_ok {α β ε : Type} (f : α → β) (a : α) :
    (Except.ok a : Except ε α).map f = Except.ok (f a) := rfl

theorem lookupDate_eq_nil_of_not_key {m : List (String × List Commit)} {d : String}
    (h : ∀ kv ∈ m, kv.fst ≠ d) : lookupDate m d = [] := by
  unfold lookupDate
  split
  · rename_i kv heq
    have h1 := List.find?_some heq
    have h2 := List.mem_of_find?_eq_some heq
    exact absurd (by simpa using h1) (h kv h2)
  · rfl

theorem entriesAt_nil_of_not_mapKey {rs : List RepoResult} {d : String}
    (h : d ∉ mapKeys rs) : entriesAt rs d = [] := by
  unfold entriesAt
  rw [List.flatten_eq_nil_iff]
  intro l hl
  rw [List.mem_map] at hl
  obtain ⟨r, hr, hrl⟩ := hl
  subst hrl
  unfold repoEntries
  rw [lookupDate_eq_nil_of_not_key]
  · rfl
  · intro kv hkv hkvd
    refine h ?_
    unfold mapKeys
    rw [List.mem_dedup, List.mem_flatten]
    refine ⟨r.commitsByDate.map Prod.fst, ?_, ?_⟩
    · exact List.mem_map_of_mem _ hr
    · rw [← hkvd]
      exact List.mem_map_of_mem _ hkv

/-! ## The claims -/

/-- **C1.** In every repository result the aggregator builds, no commit hash
appears twice across the day buckets, and the commit attributed to a hash
that several branches return is the first occurrence in branch iteration
order of the matching-identity stream. -/
theorem claim1_dedup_first_wins (path name email : String) (bls : List (List Commit)) :
    ((bucketCommits (mkRepoResult path name email bls)).map Commit.hash).Nodup ∧
    ∀ c ∈ bucketCommits (mkRepoResult path name email bls),
      (matchingStream email bls).find? (fun x => x.hash == c.hash) = some c := by
  have hperm := bucketCommits_mkRepoResult path name email bls
  constructor
  · have hnd : (((collectCommits email bls).filter
        (fun c => !(extractDateKey c.date == ""))).map Commit.hash).Nodup :=
      List.Nodup.sublist ((List.filter_sublist _).map Commit.hash)
        (collectCommits_hashNodup email bls)
    exact (hperm.map Commit.hash).symm.nodup hnd
  · intro c hc
    have hc' := (List.mem_filter.mp (hperm.mem_iff.mp hc)).1
    exact mem_collectCommits hc'

/-- **C2.** Every commit in a repository result's day buckets has an author
email equal to the configured identity under the case-insensitive
comparison; commits by any other author never enter the result. -/
theorem claim2_identity_filter (path name email : String) (bls : List (List Commit)) :
    ∀ c ∈ bucketCommits (mkRepoResult path name email bls),
      eqFold c.authorEmail email = true := by
  intro c hc
  have hperm := bucketCommits_mkRepoResult path name email bls
  have hc' := (List.mem_filter.mp (hperm.mem_iff.mp hc)).1
  have hf := mem_collectCommits hc'
  have hmatch := mem_matchingStream_matches (List.mem_of_find?_eq_some hf)
  unfold matchesIdentity at hmatch
  exact hmatch

/-- **C3.** In pretty rendering, every member of a block built from one
sorted day's entry list carries the block's repository name and that day's
key: blocks never span two repositories or two calendar days. -/
theorem claim3_blocks_one_repo_one_day (results : List RepoResult) (d : String) (b : Block)
    (i : Nat) (hb : b ∈ buildBlocks (sortEntries (entriesAt results d)))
    (h1 : b.startIdx ≤ i) (h2 : i ≤ b.endIdx) :
    i < (sortEntries (entriesAt results d)).length ∧
    (entryAt (sortEntries (entriesAt results d)) i).repoName = b.repoName ∧
    (entryAt (sortEntries (entriesAt results d)) i).dateKey = d := by
  obtain ⟨hse, hend, hrep⟩ := buildBlocks_spec hb
  have hilt : i < (sortEntries (entriesAt results d)).length := by omega
  refine ⟨hilt, hrep i h1 h2, ?_⟩
  exact (mem_entriesAt (mem_sortEntries (entryAt_mem hilt))).1

/-- **C4 (amended).** The day-bucket key is the strict RFC 3339 parse
formatted back as `YYYY-MM-DD`; on parse failure the first ten bytes are
taken verbatim whenever the string has at least ten bytes — without any
check that they look like a date — and only a string shorter than ten bytes
makes the key empty, which is exactly when the commit is dropped from the
day index (with a non-fatal warning). -/
theorem claim4_amended_date_key (iso : String) (cs : List Commit) :
    (∀ t, goParseRFC3339 iso = some t → extractDateKey iso = formatDateKey t) ∧
    (goParseRFC3339 iso = none → 10 ≤ iso.data.length →
      extractDateKey iso = ⟨iso.data.take 10⟩) ∧
    (goParseRFC3339 iso = none → iso.data.length < 10 → extractDateKey iso = "") ∧
    ((buildBuckets cs).map Prod.snd).flatten.Perm
      (cs.filter (fun c => !(extractDateKey c.date == ""))) :=
  ⟨fun _ h => extractDateKey_rfc h,
   fun h hl => extractDateKey_fallback h hl,
   fun h hl => extractDateKey_short h hl,
   buildBuckets_flatten cs⟩

/-- **C4 counterexample.** The claim says a first-ten-characters fallback
that does not look like a date drops the commit; in fact any string of at
least ten bytes yields a key and the commit is kept: `"XXXXXXXXXXZZ"` fails
the strict parse, its ten-byte prefix does not look like a date, yet the
commit lands in the day index under the key `"XXXXXXXXXX"`. -/
theorem claim4_counterexample :
    specLooksLikeDate ⟨("XXXXXXXXXXZZ" : String).data.take 10⟩ = false ∧
    extractDateKey "XXXXXXXXXXZZ" ≠ "" ∧
    bucketCommits (mkRepoResult "/p" "p" "e@x"
      [[⟨"aaaaaaa1", "A", "e@x", "XXXXXXXXXXZZ", "m"⟩]]) =
      [⟨"aaaaaaa1", "A", "e@x", "XXXXXXXXXXZZ", "m"⟩] := by
  refine ⟨by decide, by decide, by decide⟩

theorem goSub_self (t : GoTime) : goSub t t = 0 := by
  unfold goSub maxI64 minI64
  norm_num

theorem goAbsDuration_zero : goAbsDuration 0 = 0 := by
  unfold goAbsDuration minI64
  norm_num

theorem blockDuration_props {entries : List ChangelogEntry} {b : Block}
    (hk : extractDateKey (entryAt entries b.startIdx).commit.date =
      extractDateKey (entryAt entries b.endIdx).commit.date) :
    0 ≤ blockDuration entries b ∧
    (∀ ts te,
      parseCommitLocalClock (entryAt entries b.startIdx).commit.date = some ts →
      parseCommitLocalClock (entryAt entries b.endIdx).commit.date = some te →
      blockDuration entries b = |toSecs te - toSecs ts| * 1000000000) ∧
    ((parseCommitLocalClock (entryAt entries b.startIdx).commit.date = none ∨
      parseCommitLocalClock (entryAt entries b.endIdx).commit.date = none) →
      blockDuration entries b = 0) ∧
    (b.startIdx = b.endIdx → blockDuration entries b = 0) := by
  have hformula : ∀ ts te,
      parseCommitLocalClock (entryAt entries b.startIdx).commit.date = some ts →
      parseCommitLocalClock (entryAt entries b.endIdx).commit.date = some te →
      blockDuration entries b = |toSecs te - toSecs ts| * 1000000000 := by
    intro ts te hts hte
    have hsame := sameCivilDay hts hte hk
    have hsmall : (toSecs te - toSecs ts).natAbs ≤ 86399 :=
      toSecs_diff_small ⟨hsame.1.symm, hsame.2.1.symm, hsame.2.2.symm⟩
        (parsed_bounds hte) (parsed_bounds hts)
    have hb2 : ((toSecs te - toSecs ts) * 1000000000).natAbs ≤ 86399000000000 := by
      rw [Int.natAbs_mul]
      have h9 : ((1000000000 : Int)).natAbs = 1000000000 := rfl
      rw [h9]
      omega
    unfold blockDuration
    rw [hts, hte]
    show goAbsDuration (goSub te ts) = |toSecs te - toSecs ts| * 1000000000
    rw [goSub_small hsmall, goAbsDuration_small hb2, abs_mul]
    norm_num
  refine ⟨?_, hformula, ?_, ?_⟩
  · rcases hts : parseCommitLocalClock (entryAt entries b.startIdx).commit.date with _ | ts
    · have h0 : blockDuration entries b = 0 := by
        unfold blockDuration
        rw [hts]
      rw [h0]
    · rcases hte : parseCommitLocalClock (entryAt entries b.endIdx).commit.date with _ | te
      · have h0 : blockDuration entries b = 0 := by
          unfold blockDuration
          rw [hts, hte]
        rw [h0]
      · rw [hformula ts te hts hte]
        exact mul_nonneg (abs_nonneg _) (by norm_num)
  · intro hfail
    rcases hfail with h | h
    · unfold blockDuration
      rw [h]
    · rcases hts : parseCommitLocalClock (entryAt entries b.startIdx).commit.date with _ | ts
      · unfold blockDuration
        rw [hts]
      · unfold blockDuration
        rw [hts, h]
  · intro heq
    unfold blockDuration
    rw [heq]
    rcases hp : parseCommitLocalClock (entryAt entries b.endIdx).commit.date with _ | t
    · rfl
    · show goAbsDuration (goSub t t) = 0
      rw [goSub_self, goAbsDuration_zero]

/-- **C5.** For every block of the rendering pipeline (over the
wellformed repository results the aggregator produces), the computed
duration is the absolute difference (in nanoseconds) of the offset-stripped
local-clock times of the first and last entry, zero when either timestamp
fails to parse under the local-clock rule, never negative, and zero for
every single-commit block. -/
theorem claim5_block_duration (results : List RepoResult) (d : String) (b : Block)
    (hwf : WellFormedResults results)
    (hb : b ∈ buildBlocks (sortEntries (entriesAt results d))) :
    0 ≤ blockDuration (sortEntries (entriesAt results d)) b ∧
    (∀ ts te,
      parseCommitLocalClock
        (entryAt (sortEntries (entriesAt results d)) b.startIdx).commit.date = some ts →
      parseCommitLocalClock
        (entryAt (sortEntries (entriesAt results d)) b.endIdx).commit.date = some te →
      blockDuration (sortEntries (entriesAt results d)) b =
        |toSecs te - toSecs ts| * 1000000000) ∧
    ((parseCommitLocalClock
        (entryAt (sortEntries (entriesAt results d)) b.startIdx).commit.date = none ∨
      parseCommitLocalClock
        (entryAt (sortEntries (entriesAt results d)) b.endIdx).commit.date = none) →
      blockDuration (sortEntries (entriesAt results d)) b = 0) ∧
    (b.startIdx = b.endIdx → blockDuration (sortEntries (entriesAt results d)) b = 0) := by
  obtain ⟨hse, hlt, _⟩ := buildBlocks_spec hb
  have hstart_lt : b.startIdx < (sortEntries (entriesAt results d)).length := by omega
  have hkey_s := wf_entry_key hwf (mem_sortEntries (entryAt_mem hstart_lt))
  have hkey_e := wf_entry_key hwf (mem_sortEntries (entryAt_mem hlt))
  exact blockDuration_props (hkey_s.1.trans hkey_e.1.symm)

/-- **C6.** Pretty rendering emits day keys in ascending bytewise
(lexicographic) order, and each day's entries sorted by the total order
(timestamp, then repository name, then hash as the final tiebreak): both
lists are sorted permutations of the collected data. -/
theorem claim6_deterministic_order (results : List RepoResult) :
    (sortedDayKeys results).Sorted strPrec ∧
    (sortedDayKeys results).Perm (dayKeys results) ∧
    ∀ d, (sortEntries (entriesAt results d)).Sorted tripleLe ∧
      (sortEntries (entriesAt results d)).Perm (entriesAt results d) := by
  refine ⟨List.sorted_insertionSort strPrec (dayKeys results),
    List.perm_insertionSort strPrec (dayKeys results), ?_⟩
  intro d
  exact ⟨(List.sorted_insertionSort entPrec (entriesAt results d)).imp
      (fun h => entPrec_iff.mp h),
    List.perm_insertionSort entPrec (entriesAt results d)⟩

/-- **C7 counterexample.** JSON mode serializes the collected slice in
collection order: two distinct repository results encoded in the two
possible collection orders give different JSON outputs, so the rendered
JSON output is not invariant under permutations of the collected list. -/
theorem claim7_counterexample :
    (([⟨"/a", "a", []⟩, ⟨"/b", "b", []⟩] : List RepoResult).Perm
      [⟨"/b", "b", []⟩, ⟨"/a", "a", []⟩]) ∧
    jsonEncodeResults [⟨"/a", "a", []⟩, ⟨"/b", "b", []⟩] ≠
      jsonEncodeResults [⟨"/b", "b", []⟩, ⟨"/a", "a", []⟩] := by
  constructor
  · decide
  · intro h
    unfold jsonEncodeResults encodeRepoResult at h
    simp at h

/-- **C7 (amended).** The pretty-mode output is independent of the order in
which workers finish: for every permutation of the collected repository
results the pretty rendering is identical, provided each day's entries have
pairwise-distinct (timestamp, repository name, hash) sort keys — the
unstable in-day sort determines the output only up to key ties.  (JSON mode
is excluded: it serializes the collected list in collection order, see the
counterexample.) -/
theorem claim7_amended_pretty_perm (rs₁ rs₂ : List RepoResult) (hperm : rs₁.Perm rs₂)
    (hkeys : ∀ d ∈ mapKeys rs₁, ((entriesAt rs₁ d).map entryKey).Nodup) :
    printPretty rs₁ = printPretty rs₂ := by
  refine printPretty_perm_eq hperm ?_
  intro d
  by_cases hd : d ∈ mapKeys rs₁
  · exact hkeys d hd
  · rw [entriesAt_nil_of_not_mapKey hd]
    simp

/-- **C8.** A branch-enumeration or fetch failure in any repository makes
the whole command fail: the run errs exactly when some worker fails, the
reported error names an offending repository (and its failing branch for a
fetch error), an erring run produces neither JSON nor pretty output, and a
successful run contains every repository's result — no partial success
mode exists. -/
theorem claim8_fail_fast (envs : List RepoEnv) :
    ((∃ e, runAll envs = Except.error e) ↔ ∃ env ∈ envs, workerFailsB env = true) ∧
    (∀ e, runAll envs = Except.error e →
      ((∃ env ∈ envs, env.branchList = none ∧ e = AggErr.branchList env.path) ∨
       (∃ env ∈ envs, ∃ bs b, env.branchList = some bs ∧ b ∈ bs ∧ b.res = FetchRes.err ∧
         e = AggErr.fetch b.branch env.path))) ∧
    (∀ e, runAll envs = Except.error e →
      runCommandJson envs = Except.error e ∧ runCommandPretty envs = Except.error e) ∧
    (∀ rs, runAll envs = Except.ok rs → ∀ env ∈ envs, ∃ r ∈ rs, runWorker env = Except.ok r) := by
  refine ⟨runAll_error_iff, ?_, ?_, ?_⟩
  · intro e he
    obtain ⟨env, henv, hw⟩ := runAll_error_mem he
    rcases runWorker_error_shape hw with ⟨h1, h2⟩ | ⟨bs, b, h1, h2, h3, h4⟩
    · exact Or.inl ⟨env, henv, h1, h2⟩
    · exact Or.inr ⟨env, henv, bs, b, h1, h2, h3, h4⟩
  · intro e he
    unfold runCommandJson runCommandPretty
    rw [he]
    exact ⟨rfl, rfl⟩
  · intro rs h
    exact runAll_ok_forward h

/-- **C9.** A repository whose fetched branches contain no identity-matching
commit aggregates to a result with an empty day map (not an error), and in
JSON mode that repository still appears in the output array with
`commits_by_date` serialized as the empty object — present and not null. -/
theorem claim9_empty_repo (env : RepoEnv) (bs : List BranchFetch)
    (hbl : env.branchList = some bs)
    (hok : ∀ b ∈ bs, b.res ≠ FetchRes.err)
    (hnomatch : ∀ b ∈ bs, ∀ c ∈ fetchedCommits b, matchesIdentity env.email c = false) :
    ∃ r, runWorker env = Except.ok r ∧ r.commitsByDate = [] ∧
      encodeRepoResult r = Json.obj [("path", Json.str env.path),
        ("name", Json.str (baseName env.path)), ("commits_by_date", Json.obj [])] ∧
      Json.obj ([] : List (String × Json)) ≠ Json.null ∧
      ∀ envs rs, env ∈ envs → runAll envs = Except.ok rs →
        ∃ r' ∈ rs, r'.path = env.path ∧ r'.commitsByDate = [] ∧
          ∃ items, jsonEncodeResults rs = Json.arr items ∧ encodeRepoResult r' ∈ items := by
  have hfind : bs.find? branchFailed = none := by
    rw [List.find?_eq_none]
    intro b hb
    rcases hres : b.res with cs | _
    · simp [branchFailed, hres]
    · exact absurd hres (hok b hb)
  have hw : runWorker env = Except.ok (mkRepoResult env.path (baseName env.path) env.email
      (bs.map fetchedCommits)) := by
    rw [runWorker_eq_find hbl, hfind]
  have hcd : (mkRepoResult env.path (baseName env.path) env.email
      (bs.map fetchedCommits)).commitsByDate = [] := by
    unfold mkRepoResult
    have hcol : collectCommits env.email (bs.map fetchedCommits) = [] := by
      refine collectCommits_nil ?_
      intro cs hcs c hc
      rw [List.mem_map] at hcs
      obtain ⟨b, hb, hbc⟩ := hcs
      subst hbc
      exact hnomatch b hb c hc
    rw [hcol]
    rfl
  refine ⟨_, hw, hcd, ?_, by simp, ?_⟩
  · unfold encodeRepoResult
    rw [hcd]
    rfl
  · intro envs rs henv hall
    obtain ⟨r', hr1, hr2⟩ := runAll_ok_forward hall env henv
    rw [hw] at hr2
    injection hr2 with hr2
    subst hr2
    exact ⟨_, hr1, rfl, hcd, rs.map encodeRepoResult, rfl, List.mem_map_of_mem _ hr1⟩

/-- **C10.** Pretty rendering slices the 7-byte hash prefix without a
guard: it is well-defined whenever every bucketed commit's hash has at
least 7 bytes, and on an input holding a commit with a 2-byte hash the
rendering panics (modelled as `none`) instead of printing the commit. -/
theorem claim10_short_hash_panics :
    (∀ results : List RepoResult,
      (∀ r ∈ results, ∀ kv ∈ r.commitsByDate, ∀ c ∈ kv.snd, 7 ≤ c.hash.data.length) →
      (printPretty results).isSome = true) ∧
    (printPretty [⟨"/p", "p", [("2025-02-03",
      [⟨"ab", "A", "a@x", "2025-02-03T09:00:00Z", "m"⟩])]⟩]).isNone = true := by
  constructor
  · intro results hlen
    unfold printPretty
    split_ifs with hc
    · rfl
    · have hm := mapM_option_isSome
        (f := fun d => renderDay d (sortEntries (entriesAt results d)))
        (l := sortedDayKeys results) ?_
      · rcases hmm : (sortedDayKeys results).mapM
            (fun d => renderDay d (sortEntries (entriesAt results d))) with _ | ds
        · rw [hmm] at hm
          simp at hm
        · rfl
      · intro d _
        refine renderDay_isSome ?_
        intro e he
        obtain ⟨_, r, hr, _, _, hcl⟩ := mem_entriesAt (mem_sortEntries he)
        obtain ⟨kv, hkv, _, hck⟩ := lookupDate_mem hcl
        exact hlen r hr kv hkv e.commit hck
  · rfl

instance decWellFormedResults (rs : List RepoResult) : Decidable (WellFormedResults rs) := by
  unfold WellFormedResults
  infer_instance

/-! ## Witnesses -/

/-- Witness for C1 at a concrete two-branch input sharing one hash. -/
theorem claim1_witness :
    (matchingStream "e@x"
      [[⟨"aaaaaaa1", "A", "e@x", "2025-02-03T09:00:00Z", "m1"⟩],
       [⟨"aaaaaaa1", "A", "E@X", "2025-02-03T09:05:00Z", "dup"⟩]]).find?
      (fun x => x.hash == (⟨"aaaaaaa1", "A", "e@x", "2025-02-03T09:00:00Z", "m1"⟩ : Commit).hash)
      = some ⟨"aaaaaaa1", "A", "e@x", "2025-02-03T09:00:00Z", "m1"⟩ :=
  (claim1_dedup_first_wins "/p" "p" "e@x"
    [[⟨"aaaaaaa1", "A", "e@x", "2025-02-03T09:00:00Z", "m1"⟩],
     [⟨"aaaaaaa1", "A", "E@X", "2025-02-03T09:05:00Z", "dup"⟩]]).2
    ⟨"aaaaaaa1", "A", "e@x", "2025-02-03T09:00:00Z", "m1"⟩ (by decide)

/-- Witness for C2 at a concrete input with a differently-cased author. -/
theorem claim2_witness :
    eqFold (⟨"aaaaaaa1", "A", "E@X", "2025-02-03T09:00:00Z", "m"⟩ : Commit).authorEmail "e@x"
      = true :=
  claim2_identity_filter "/p" "p" "e@x"
    [[⟨"aaaaaaa1", "A", "E@X", "2025-02-03T09:00:00Z", "m"⟩]]
    ⟨"aaaaaaa1", "A", "E@X", "2025-02-03T09:00:00Z", "m"⟩ (by decide)

/-- Witness for C3 at a concrete one-repository, two-commit day. -/
theorem claim3_witness :
    1 < (sortEntries (entriesAt [⟨"/p", "p", [("2025-02-03",
        [⟨"aaaaaaa1", "A", "e@x", "2025-02-03T09:00:00Z", "m1"⟩,
         ⟨"aaaaaaa2", "A", "e@x", "2025-02-03T09:45:00Z", "m2"⟩])]⟩] "2025-02-03")).length ∧
    (entryAt (sortEntries (entriesAt [⟨"/p", "p", [("2025-02-03",
        [⟨"aaaaaaa1", "A", "e@x", "2025-02-03T09:00:00Z", "m1"⟩,
         ⟨"aaaaaaa2", "A", "e@x", "2025-02-03T09:45:00Z", "m2"⟩])]⟩] "2025-02-03")) 1).repoName
      = "p" ∧
    (entryAt (sortEntries (entriesAt [⟨"/p", "p", [("2025-02-03",
        [⟨"aaaaaaa1", "A", "e@x", "2025-02-03T09:00:00Z", "m1"⟩,
         ⟨"aaaaaaa2", "A", "e@x", "2025-02-03T09:45:00Z", "m2"⟩])]⟩] "2025-02-03")) 1).dateKey
      = "2025-02-03" :=
  claim3_blocks_one_repo_one_day
    [⟨"/p", "p", [("2025-02-03",
      [⟨"aaaaaaa1", "A", "e@x", "2025-02-03T09:00:00Z", "m1"⟩,
       ⟨"aaaaaaa2", "A", "e@x", "2025-02-03T09:45:00Z", "m2"⟩])]⟩]
    "2025-02-03" ⟨0, 1, "p"⟩ 1 (by decide) (by decide) (by decide)

/-- Witness for C4 (amended) on the fallback branch at a concrete string. -/
theorem claim4_witness :
    extractDateKey "XXXXXXXXXXZZ" = ⟨("XXXXXXXXXXZZ" : String).data.take 10⟩ :=
  (claim4_amended_date_key "XXXXXXXXXXZZ" []).2.1 (by decide) (by decide)

/-- Witness for C5: the 45-minute block of a concrete two-commit day. -/
theorem claim5_witness :
    blockDuration (sortEntries (entriesAt [⟨"/p", "p", [("2025-02-03",
        [⟨"aaaaaaa1", "A", "e@x", "2025-02-03T09:00:00Z", "m1"⟩,
         ⟨"aaaaaaa2", "A", "e@x", "2025-02-03T09:45:00Z", "m2"⟩])]⟩] "2025-02-03"))
      ⟨0, 1, "p"⟩
      = |toSecs ⟨2025, 2, 3, 9, 45, 0⟩ - toSecs ⟨2025, 2, 3, 9, 0, 0⟩| * 1000000000 :=
  (claim5_block_duration
    [⟨"/p", "p", [("2025-02-03",
      [⟨"aaaaaaa1", "A", "e@x", "2025-02-03T09:00:00Z", "m1"⟩,
       ⟨"aaaaaaa2", "A", "e@x", "2025-02-03T09:45:00Z", "m2"⟩])]⟩]
    "2025-02-03" ⟨0, 1, "p"⟩ (by decide) (by decide)).2.1
    ⟨2025, 2, 3, 9, 0, 0⟩ ⟨2025, 2, 3, 9, 45, 0⟩ (by decide) (by decide)

/-- Witness for C7 (amended) at two concrete results in both orders. -/
theorem claim7_witness :
    printPretty [⟨"/a", "a", [("2025-02-03",
        [⟨"aaaaaaa1", "A", "e@x", "2025-02-03T09:00:00Z", "m1"⟩])]⟩,
      ⟨"/b", "b", [("2025-02-03",
        [⟨"bbbbbbb1", "A", "e@x", "2025-02-03T10:00:00Z", "m2"⟩])]⟩]
      = printPretty [⟨"/b", "b", [("2025-02-03",
        [⟨"bbbbbbb1", "A", "e@x", "2025-02-03T10:00:00Z", "m2"⟩])]⟩,
      ⟨"/a", "a", [("2025-02-03",
        [⟨"aaaaaaa1", "A", "e@x", "2025-02-03T09:00:00Z", "m1"⟩])]⟩] :=
  claim7_amended_pretty_perm
    [⟨"/a", "a", [("2025-02-03",
      [⟨"aaaaaaa1", "A", "e@x", "2025-02-03T09:00:00Z", "m1"⟩])]⟩,
     ⟨"/b", "b", [("2025-02-03",
      [⟨"bbbbbbb1", "A", "e@x", "2025-02-03T10:00:00Z", "m2"⟩])]⟩]
    [⟨"/b", "b", [("2025-02-03",
      [⟨"bbbbbbb1", "A", "e@x", "2025-02-03T10:00:00Z", "m2"⟩])]⟩,
     ⟨"/a", "a", [("2025-02-03",
      [⟨"aaaaaaa1", "A", "e@x", "2025-02-03T09:00:00Z", "m1"⟩])]⟩]
    (by decide) (by decide)

/-- Witness for C8 at a concrete repository with a failing branch fetch. -/
theorem claim8_witness :
    (∃ env ∈ [(⟨"/p", "e@x", some [⟨"main", FetchRes.ok []⟩, ⟨"dev", FetchRes.err⟩]⟩ : RepoEnv)],
      env.branchList = none ∧ AggErr.fetch "dev" "/p" = AggErr.branchList env.path) ∨
    (∃ env ∈ [(⟨"/p", "e@x", some [⟨"main", FetchRes.ok []⟩, ⟨"dev", FetchRes.err⟩]⟩ : RepoEnv)],
      ∃ bs b, env.branchList = some bs ∧ b ∈ bs ∧ b.res = FetchRes.err ∧
        AggErr.fetch "dev" "/p" = AggErr.fetch b.branch env.path) :=
  (claim8_fail_fast [⟨"/p", "e@x", some [⟨"main", FetchRes.ok []⟩, ⟨"dev", FetchRes.err⟩]⟩]).2.1
    (AggErr.fetch "dev" "/p") rfl

/-- Witness for C9 at a concrete repository whose only fetched commit has a
non-matching author. -/
theorem claim9_witness :
    ∃ r, runWorker ⟨"/p", "e@x", some [⟨"main", FetchRes.ok
        [⟨"bbbbbbb1", "B", "other@x", "2025-02-03T09:00:00Z", "m"⟩]⟩]⟩ = Except.ok r ∧
      r.commitsByDate = [] := by
  obtain ⟨r, h1, h2, _⟩ := claim9_empty_repo
    ⟨"/p", "e@x", some [⟨"main", FetchRes.ok
      [⟨"bbbbbbb1", "B", "other@x", "2025-02-03T09:00:00Z", "m"⟩]⟩]⟩
    [⟨"main", FetchRes.ok [⟨"bbbbbbb1", "B", "other@x", "2025-02-03T09:00:00Z", "m"⟩]⟩]
    rfl (by decide) (by decide)
  exact ⟨r, h1, h2⟩

/-- Witness for C10's precondition half at a concrete long-hash input. -/
theorem claim10_witness :
    (printPretty [⟨"/p", "p", [("2025-02-03",
      [⟨"aaaaaaa1", "A", "a@x", "2025-02-03T09:00:00Z", "m"⟩])]⟩]).isSome = true :=
  claim10_short_hash_panics.1
    [⟨"/p", "p", [("2025-02-03",
      [⟨"aaaaaaa1", "A", "a@x", "2025-02-03T09:00:00Z", "m"⟩])]⟩] (by decide)
